import Mathlib

/-!
# base.h: arena allocator and string slices

A shallow embedding of `src/base.h`.

* A pointer is the address it holds, a natural number. Arithmetic on the cursor
  and on views (`p + n`, `p += n`) is addition of addresses; `arena_init`, which
  forms `mem + cap` from two arbitrary arguments, takes that sum modulo `2^64`,
  as the machine does.
* `uz` (the type of `sizeof`) is 64 bits wide: every `uz` computation is done
  modulo `2^64` (`add64`, `sub64`, `mul64`, `neg64`).
* Memory is a map from addresses to bytes; a read goes through `load`, which
  yields a value below 256.
* `ASSERT_ALWAYS(false)` executes `__builtin_trap()`: a function that can trap
  returns an `Option`, and `none` is the trap.
* A string literal (`str_lit`) is read-only data: it is given by the list of its
  bytes. An `s8` value is an integer from -128 to 127.
* A loop whose counter runs up to `s.len` carries a bound on its iterations;
  the theorems on each loop show that the bound is never what stops it.
-/

namespace Base

/-! ## Machine arithmetic on `uz` -/

/-- The number of values of a `uz`: `2^64`. -/
def UZ : Nat := 2 ^ 64

/-- Sum of two `uz` values. -/
def add64 (x y : Nat) : Nat := (x + y) % UZ

/-- Difference `x - y` of two `uz` values (also of two pointers, converted to `uz`). -/
def sub64 (x y : Nat) : Nat := (x + (UZ - y % UZ)) % UZ

/-- Product of two `uz` values. -/
def mul64 (x y : Nat) : Nat := (x * y) % UZ

/-- Unary minus on a `uz` value: `-(uz)x`. -/
def neg64 (x : Nat) : Nat := (UZ - x % UZ) % UZ

/-! ## Memory -/

/-- Byte-addressed memory. -/
abbrev Mem := Nat → Nat

/-- Read of the `u8` stored at address `p`. -/
def load (m : Mem) (p : Nat) : Nat := m p % 256

/-- Memory after `__builtin_memset(p, c, n)`: the `n` bytes from `p` hold `c`. -/
def memset (m : Mem) (p c n : Nat) : Mem :=
  fun q => if p ≤ q ∧ q < p + n then c % 256 else m q

/-- Memory after `__builtin_memcpy(dst, src, n)`: the `n` bytes from `dst` hold
what the `n` bytes from `src` held. -/
def memcpy (m : Mem) (dst src n : Nat) : Mem :=
  fun q => if dst ≤ q ∧ q < dst + n then load m (src + (q - dst)) else m q

/-- Result of `__builtin_memcmp(p, q, n)`: zero when the two runs of `n` bytes
agree, otherwise the difference of the first pair of bytes that differ. -/
def memcmp (m : Mem) : Nat → Nat → Nat → Int
  | _, _, 0 => 0
  | p, q, n + 1 =>
    if load m p = load m q then memcmp m (p + 1) (q + 1) n
    else (load m p : Int) - (load m q : Int)

/-! ## Arena -/

/-- The `struct Arena`: cursor `beg`, one-past-the-end pointer `end` (the field
`end_` here, `end` being a keyword), capacity `cap`. -/
structure Arena where
  beg : Nat
  end_ : Nat
  cap : Nat
  deriving DecidableEq

/-- The function `arena_init(mem, cap)`: a zeroed arena when `mem` is null;
otherwise `arena.end = arena.beg + cap`, a 64-bit sum that wraps past `2^64`. -/
def arena_init (mem cap : Nat) : Arena :=
  if mem ≠ 0 then { beg := mem, end_ := add64 mem cap, cap := cap }
  else { beg := 0, end_ := 0, cap := 0 }

/-- What a call of `arena_alloc` that does not trap leaves behind: the returned
pointer, the arena and the memory. -/
structure Alloc where
  ptr : Nat
  arena : Arena
  mem : Mem

/-- The local `align` of `arena_alloc`: `-(uz)arena->beg & (align_size - 1)`. -/
def arena_padding (arena : Arena) (align_size : Nat) : Nat :=
  neg64 arena.beg &&& sub64 align_size 1

/-- The function `arena_alloc(arena, size, align_size, count)`; `none` is the trap of
`ASSERT_ALWAYS(false)`. -/
def arena_alloc (arena : Arena) (m : Mem) (size align_size count : Nat) : Option Alloc :=
  let alloc_size := mul64 size count
  let avail_size := sub64 arena.end_ arena.beg
  let align := arena_padding arena align_size
  if avail_size < add64 alloc_size align then none
  else
    let ptr := arena.beg + align
    some { ptr := ptr
           arena := { arena with beg := arena.beg + add64 align alloc_size }
           mem := memset m ptr 0 count }

/-- One call of `arena_alloc`: its arguments `size`, `align_size`, `count`. -/
structure Request where
  size : Nat
  align_size : Nat
  count : Nat

/-- A sequence of `arena_alloc` calls on one arena, each on the arena and memory
the call before left; it yields the ranges `(ptr, size * count)` the calls
returned, in order, and `none` when a call traps. -/
def arena_alloc_seq (arena : Arena) (m : Mem) : List Request → Option (List (Nat × Nat))
  | [] => some []
  | q :: qs =>
    match arena_alloc arena m q.size q.align_size q.count with
    | none => none
    | some r =>
      match arena_alloc_seq r.arena r.mem qs with
      | none => none
      | some ranges => some ((r.ptr, q.size * q.count) :: ranges)

/-- The arena invariant `base ≤ cursor ≤ base + capacity`, with `base = end - cap`:
`end - cap ≤ beg ≤ end` (and `cap ≤ end`, so that the subtraction is exact). -/
def ArenaInv (arena : Arena) : Prop :=
  arena.cap ≤ arena.end_ ∧ arena.end_ - arena.cap ≤ arena.beg ∧ arena.beg ≤ arena.end_

instance (arena : Arena) : Decidable (ArenaInv arena) := by
  unfold ArenaInv
  infer_instance

/-! ## Characters -/

/-- The function `char_is_space(c)`: space, tab, CR, LF, form feed, vertical tab. -/
def char_is_space (c : Nat) : Bool :=
  c == 32 || c == 9 || c == 13 || c == 10 || c == 12 || c == 11

/-! ## String -/

/-- The `struct String`: a view of `len` bytes starting at address `str`. -/
structure String where
  str : Nat
  len : Nat
  deriving DecidableEq

/-- The macro `MIN(A,B)`: `((A)<(B))?(A):(B)`. -/
def MIN (A B : Nat) : Nat := if A < B then A else B

/-- The macro `CLAMPTOP(A,X)`: `MIN(A,X)`. -/
def CLAMPTOP (A X : Nat) : Nat := MIN A X

/-- The function `str_match(a, b)`. -/
def str_match (m : Mem) (a b : String) : Bool :=
  let result := a.len == b.len
  result && (a.len == 0 || memcmp m a.str b.str a.len == 0)

/-- The function `str_starts_with(s, prefix)`; the parameter `prefix` is `pre` here. -/
def str_starts_with (m : Mem) (s pre : String) : Bool :=
  let len := CLAMPTOP s.len pre.len
  str_match m { s with len := len } { pre with len := len }

/-- What a call of `str_push_copy` that does not trap leaves behind: the returned
String, the arena and the memory. -/
structure PushCopy where
  result : String
  arena : Arena
  mem : Mem

/-- The function `str_push_copy(arena, s)`; `arena_push(arena, u8, s.len)` is
`arena_alloc(arena, sizeof(u8), alignof(u8), s.len)`, and the trap of `arena_alloc`
is the trap of the whole call. -/
def str_push_copy (arena : Arena) (m : Mem) (s : String) : Option PushCopy :=
  match arena_alloc arena m 1 1 s.len with
  | none => none
  | some a =>
    some { result := { str := a.ptr, len := s.len }
           arena := a.arena
           mem := memcpy a.mem a.ptr s.str s.len }

/-- The loop of `str_skip_line`: `while (s.len && s.str[0] != 10) { s.str++; s.len--; }`,
by recursion on `s.len`. -/
def skip_line_loop (m : Mem) : Nat → Nat → String
  | str, 0 => { str := str, len := 0 }
  | str, len + 1 =>
    if load m str ≠ 10 then skip_line_loop m (str + 1) len
    else { str := str, len := len + 1 }

/-- The function `str_skip_line(s)`: the loop, then `s.str += 1; s.len -= 1;`. -/
def str_skip_line (m : Mem) (s : String) : String :=
  let s1 := skip_line_loop m s.str s.len
  { str := s1.str + 1, len := sub64 s1.len 1 }

/-- The loop of `str_trim_right`: `while (s.len && char_is_space(s.str[s.len])) s.len -= 1;`,
by recursion on `s.len`; it yields the final `s.len`. -/
def trim_right_loop (m : Mem) (str : Nat) : Nat → Nat
  | 0 => 0
  | len + 1 =>
    if char_is_space (load m (str + (len + 1))) then trim_right_loop m str len
    else len + 1

/-- The function `str_trim_right(s)`. -/
def str_trim_right (m : Mem) (s : String) : String :=
  { s with len := trim_right_loop m s.str s.len }

/-- The loop of `str_trim_left`:
`while (s.len && char_is_space(s.str[0])) { s.str += 1; s.len -= 1; }`,
by recursion on `s.len`. -/
def trim_left_loop (m : Mem) : Nat → Nat → String
  | str, 0 => { str := str, len := 0 }
  | str, len + 1 =>
    if char_is_space (load m str) then trim_left_loop m (str + 1) len
    else { str := str, len := len + 1 }

/-- The function `str_trim_left(s)`. -/
def str_trim_left (m : Mem) (s : String) : String :=
  trim_left_loop m s.str s.len

/-- The function `str_trim(s)`: `str_trim_left`, then `str_trim_right`. -/
def str_trim (m : Mem) (s : String) : String :=
  str_trim_right m (str_trim_left m s)

/-- The bytes a view covers, first to last. -/
def bytes (m : Mem) (s : String) : List Nat :=
  (List.range s.len).map (fun i => load m (s.str + i))

/-! ## Searching -/

/-- The function `str_in_bounds(s, at)`. -/
def str_in_bounds (s : String) (at_ : Nat) : Bool := decide (at_ < s.len)

/-- The loop of `str_find_char`:
`while (str_in_bounds(source, at) && source.str[at] != c) { at++; }`.
The first argument bounds the number of iterations; the loop body runs only
with `at < source.len`, so `source.len` iterations are never exceeded. -/
def find_char_loop (m : Mem) (source : String) (c : Nat) : Nat → Nat → Nat
  | 0, at_ => at_
  | fuel + 1, at_ =>
    if str_in_bounds source at_ && load m (source.str + at_) != c then
      find_char_loop m source c fuel (at_ + 1)
    else at_

/-- The function `str_find_char(source, c, offset)`. -/
def str_find_char (m : Mem) (source : String) (c offset : Nat) : Nat :=
  find_char_loop m source c source.len offset

/-- The loop of `str_find_newline`:
`while (str_in_bounds(source, at) && source.str[at] != 10) { at++; }`,
with the same bound on the number of iterations. -/
def find_newline_loop (m : Mem) (source : String) : Nat → Nat → Nat
  | 0, at_ => at_
  | fuel + 1, at_ =>
    if str_in_bounds source at_ && load m (source.str + at_) != 10 then
      find_newline_loop m source fuel (at_ + 1)
    else at_

/-- The function `str_find_newline(source, offset)`: the loop, then `at++;`. -/
def str_find_newline (m : Mem) (source : String) (offset : Nat) : Nat :=
  add64 (find_newline_loop m source source.len offset) 1

/-! ## Prefix, postfix, split -/

/-- The function `str_postfix(s, len)`; `none` is the trap of
`ASSERT_ALWAYS(len <= s.len)`. -/
def str_postfix (s : String) (len : Nat) : Option String :=
  if len ≤ s.len then some { str := s.str + len, len := sub64 s.len len }
  else none

/-- The function `str_prefix(s, len)`. -/
def str_prefix (s : String) (len : Nat) : String :=
  { s with len := CLAMPTOP s.len len }

/-- The `struct Split`. -/
structure Split where
  head : String
  tail : String
  ok : Bool
  deriving DecidableEq

/-- The value an `s8` parameter holds when the byte `d` is passed through it. -/
def to_s8 (d : Nat) : Int :=
  if d % 256 < 128 then (d % 256 : Nat) else ((d % 256 : Nat) : Int) - 256

/-- The loop of `str_split_once`:
`for (; i < input.len && input.str[i] != split_char; i++) {}`; the byte is a `u8`,
`split_char` an `s8`, and both are compared as `int`. The first argument bounds
the number of iterations, as in `find_char_loop`. -/
def split_once_loop (m : Mem) (input : String) (split_char : Int) : Nat → Nat → Nat
  | 0, i => i
  | fuel + 1, i =>
    if decide (i < input.len) && decide ((load m (input.str + i) : Int) ≠ split_char) then
      split_once_loop m input split_char fuel (i + 1)
    else i

/-- The function `str_split_once(input, split_char)`; `none` is the trap of
`str_postfix`. -/
def str_split_once (m : Mem) (input : String) (split_char : Int) : Option Split :=
  let i := split_once_loop m input split_char input.len 0
  let ok := decide (i < input.len)
  let head := str_prefix input i
  match str_postfix input (add64 i (if ok then 1 else 0)) with
  | none => none
  | some tail => some { head := head, tail := tail, ok := ok }

/-! ## Hashing -/

/-- The loop of `str_hash`: `for (uz i = 0; i < s.len; i++)` with body
`hash ^= s.str[i] & 255; hash *= 1111111111111111111;`. The first argument is the
number of iterations left, `s.len - i`. -/
def hash_loop (m : Mem) (s : String) : Nat → Nat → Nat → Nat
  | 0, _, hash => hash
  | left + 1, i, hash =>
    hash_loop m s left (i + 1)
      (mul64 (hash ^^^ (load m (s.str + i) &&& 255)) 1111111111111111111)

/-- The function `str_hash(s)`. -/
def str_hash (m : Mem) (s : String) : Nat :=
  hash_loop m s s.len 0 0x100

/-- The reference hash of a byte sequence, as the specification words it: seed
`0x100`, and for each byte, left to right, `h := ((h XOR b) * 1111111111111111111) mod 2^64`. -/
def hash_reference (bs : List Nat) : Nat :=
  bs.foldl (fun h b => ((h ^^^ b) * 1111111111111111111) % 2 ^ 64) 0x100

/-! ## Conversion -/

/-- The table `integer_symbol_reverse[128]`. -/
def integer_symbol_reverse_table : List Nat :=
  [0xFF,0xFF,0xFF,0xFF,0xFF,0xFF,0xFF,0xFF,0xFF,0xFF,0xFF,0xFF,0xFF,0xFF,0xFF,0xFF,
   0xFF,0xFF,0xFF,0xFF,0xFF,0xFF,0xFF,0xFF,0xFF,0xFF,0xFF,0xFF,0xFF,0xFF,0xFF,0xFF,
   0xFF,0xFF,0xFF,0xFF,0xFF,0xFF,0xFF,0xFF,0xFF,0xFF,0xFF,0xFF,0xFF,0xFF,0xFF,0xFF,
   0x00,0x01,0x02,0x03,0x04,0x05,0x06,0x07,0x08,0x09,0xFF,0xFF,0xFF,0xFF,0xFF,0xFF,
   0xFF,0x0A,0x0B,0x0C,0x0D,0x0E,0x0F,0xFF,0xFF,0xFF,0xFF,0xFF,0xFF,0xFF,0xFF,0xFF,
   0xFF,0xFF,0xFF,0xFF,0xFF,0xFF,0xFF,0xFF,0xFF,0xFF,0xFF,0xFF,0xFF,0xFF,0xFF,0xFF,
   0xFF,0x0A,0x0B,0x0C,0x0D,0x0E,0x0F,0xFF,0xFF,0xFF,0xFF,0xFF,0xFF,0xFF,0xFF,0xFF,
   0xFF,0xFF,0xFF,0xFF,0xFF,0xFF,0xFF,0xFF,0xFF,0xFF,0xFF,0xFF,0xFF,0xFF,0xFF,0xFF]

/-- The read `integer_symbol_reverse[i]`, for an index below 128. -/
def integer_symbol_reverse (i : Nat) : Nat :=
  integer_symbol_reverse_table.getD i 0

/-- The function `safe_cast_u32(x)`; `none` is the trap of
`ASSERT_ALWAYS(x <= U32_MAX)`. -/
def safe_cast_u32 (x : Nat) : Option Nat :=
  if x ≤ 0xFFFFFFFF then some (x % 2 ^ 32) else none

/-- The loop of `u64_from_str`: `for (uz i = 0; i < s.len; i++)` with body
`result *= radix; result += integer_symbol_reverse[(s.str[i] & 0x7f)];`, in
`u64` arithmetic. The first argument is the number of iterations left. -/
def u64_from_str_loop (m : Mem) (s : String) (radix : Nat) : Nat → Nat → Nat → Nat
  | 0, _, result => result
  | left + 1, i, result =>
    u64_from_str_loop m s radix left (i + 1)
      (add64 (mul64 result radix) (integer_symbol_reverse (load m (s.str + i) &&& 0x7f)))

/-- The function `u64_from_str(s, radix)`. -/
def u64_from_str (m : Mem) (s : String) (radix : Nat) : Nat :=
  if 1 < radix ∧ radix ≤ 16 then u64_from_str_loop m s radix s.len 0 0 else 0

/-- The call `__builtin_memcmp(p, lit, n)` against a string literal, whose bytes
are `lit` (followed by zero bytes). -/
def memcmp_lit (m : Mem) : Nat → List Nat → Nat → Int
  | _, _, 0 => 0
  | p, lit, n + 1 =>
    if load m p = lit.headD 0 then memcmp_lit m (p + 1) lit.tail n
    else (load m p : Int) - (lit.headD 0 : Int)

/-- The call `str_match(a, str_lit(lit))`: `str_match` with a string literal, of
bytes `lit`, as its second String. -/
def str_match_lit (m : Mem) (a : String) (lit : List Nat) : Bool :=
  let result := a.len == lit.length
  result && (a.len == 0 || memcmp_lit m a.str lit a.len == 0)

/-- The function `str_to_u32(s)`; `none` is a trap, of `str_postfix` or of
`safe_cast_u32`. The literals are "0x" and "0b". -/
def str_to_u32 (m : Mem) (s : String) : Option Nat :=
  let pre := str_prefix s 2
  let radix_size : Nat × Nat :=
    if str_match_lit m pre [48, 120] then (16, 2)
    else if str_match_lit m pre [48, 98] then (2, 2)
    else (10, 0)
  match str_postfix s radix_size.2 with
  | none => none
  | some integer => safe_cast_u32 (u64_from_str m integer radix_size.1)

/-- The function `str_to_bool(s)`; the literal is "true". -/
def str_to_bool (m : Mem) (s : String) : Bool :=
  if str_match_lit m s [116, 114, 117, 101] then true else false

/-! ## Numerals, as the specification reads them -/

/-- The value of the digit character `c`: `0`-`9`, `a`-`f`, `A`-`F`. -/
def digit_value (c : Nat) : Nat :=
  if 48 ≤ c ∧ c ≤ 57 then c - 48
  else if 97 ≤ c ∧ c ≤ 102 then c - 87
  else if 65 ≤ c ∧ c ≤ 70 then c - 55
  else 0

/-- The byte `c` is a digit character of the given radix. -/
def is_digit_of (radix c : Nat) : Bool :=
  ((48 ≤ c ∧ c ≤ 57) ∨ (97 ≤ c ∧ c ≤ 102) ∨ (65 ≤ c ∧ c ≤ 70)) && decide (digit_value c < radix)

/-- The number a sequence of digit characters denotes in the given radix. -/
def digits_value (radix : Nat) (ds : List Nat) : Nat :=
  ds.foldl (fun acc c => acc * radix + digit_value c) 0

/-- The number a well-formed numeric String denotes: "0x" and hexadecimal digits,
"0b" and binary digits, or decimal digits; `none` for any other bytes. -/
def numeral_value (bs : List Nat) : Option Nat :=
  match bs with
  | 48 :: 120 :: ds => if ds.all (is_digit_of 16) then some (digits_value 16 ds) else none
  | 48 :: 98 :: ds => if ds.all (is_digit_of 2) then some (digits_value 2 ds) else none
  | ds => if ds.all (is_digit_of 10) then some (digits_value 10 ds) else none

/-! ## Arena usage -/

/-- Memory holding the bytes `bs` from address `base` on, and `fill` everywhere else. -/
def memOf (base : Nat) (bs : List Nat) (fill : Nat) : Mem :=
  fun q => if base ≤ q then (bs.getD (q - base) fill) else fill

end Base

/-! # Theorems -/

namespace Base

/-! ## Arithmetic of the alignment padding -/

theorem sub64_one (a : Nat) (h1 : 1 ≤ a) (h2 : a < UZ) : sub64 a 1 = a - 1 := by
  unfold sub64 UZ at *
  omega

theorem arena_alloc_some (arena : Arena) (m : Mem) (size align_size count : Nat) (r : Alloc)
    (hok : arena_alloc arena m size align_size count = some r) :
    ¬ sub64 arena.end_ arena.beg < add64 (mul64 size count) (arena_padding arena align_size) ∧
    r.ptr = arena.beg + arena_padding arena align_size ∧
    r.arena = { arena with
      beg := arena.beg + add64 (arena_padding arena align_size) (mul64 size count) } ∧
    r.mem = memset m (arena.beg + arena_padding arena align_size) 0 count := by
  unfold arena_alloc at hok
  simp only [] at hok
  split at hok
  · exact absurd hok (by simp)
  · rename_i hlt
    have := Option.some.inj hok
    subst this
    exact ⟨hlt, rfl, rfl, rfl⟩

/-- C4, at the failing input: the arena `[4097, 4113)` has 16 bytes left, the
request is one element of `2^64 - 1` bytes aligned to 2. The product
`size * count` does not overflow, the padding is 1, and padding + size * count
is `2^64`, far more than the 16 bytes left; the sum `alloc_size + align` wraps
to 0 in `uz`, the check `avail_size < alloc_size + align` is false, and the call
returns 4098 without trapping, the cursor unmoved. -/
theorem arena_alloc_capacity_check_wraps :
    (2 ^ 64 - 1) * 1 < UZ ∧
    arena_padding ⟨4097, 4113, 16⟩ 2 = 1 ∧
    4113 - 4097 < arena_padding ⟨4097, 4113, 16⟩ 2 + (2 ^ 64 - 1) * 1 ∧
    add64 (mul64 (2 ^ 64 - 1) 1) (arena_padding ⟨4097, 4113, 16⟩ 2) = 0 ∧
    arena_alloc ⟨4097, 4113, 16⟩ (fun _ => 170) (2 ^ 64 - 1) 2 1
      = some ⟨4098, ⟨4097, 4113, 16⟩, memset (fun _ => 170) 4098 0 1⟩ := by
  refine ⟨by decide, by decide, by decide, by decide, rfl⟩

/-- C2, at the failing input: after `arena_init(4097, 16)` the call
`arena_alloc(2^64 - 1, 2, 1)` returns 4098, so its range `[4098, 4098 + 2^64 - 1)`
runs past the end 4113 of the backing region; the cursor stays at 4097, and the
next call `arena_alloc(1, 1, 2)` returns 4097, whose range `[4097, 4099)` holds
the byte 4098 of the first range. -/
theorem arena_alloc_ranges_alias_after_wrap :
    arena_init 4097 16 = ⟨4097, 4113, 16⟩ ∧
    arena_alloc (arena_init 4097 16) (fun _ => 170) (2 ^ 64 - 1) 2 1
      = some ⟨4098, ⟨4097, 4113, 16⟩, memset (fun _ => 170) 4098 0 1⟩ ∧
    arena_alloc ⟨4097, 4113, 16⟩ (memset (fun _ => 170) 4098 0 1) 1 1 2
      = some ⟨4097, ⟨4099, 4113, 16⟩,
          memset (memset (fun _ => 170) 4098 0 1) 4097 0 2⟩ ∧
    arena_alloc_seq (arena_init 4097 16) (fun _ => 170) [⟨2 ^ 64 - 1, 2, 1⟩, ⟨1, 1, 2⟩]
      = some [(4098, 2 ^ 64 - 1), (4097, 2)] ∧
    4097 + 16 < 4098 + (2 ^ 64 - 1) * 1 ∧
    (4098 ≤ 4098 ∧ 4098 < 4098 + (2 ^ 64 - 1) * 1) ∧
    (4097 ≤ 4098 ∧ 4098 < 4097 + 1 * 2) := by
  refine ⟨rfl, rfl, rfl, by decide, by decide, by decide, by decide⟩

/-- C3, at the failing input: two elements of 4 bytes from an arena over memory
that holds 0xAA everywhere. The call returns 4096, the region is `[4096, 4104)`,
and `__builtin_memset(ptr, 0, count)` clears `count = 2` bytes: the byte at
4098, inside the region, still holds 0xAA. -/
theorem arena_alloc_zeroes_count_bytes_only :
    ∃ r, arena_alloc ⟨4096, 4112, 16⟩ (fun _ => 170) 4 4 2 = some r ∧
      r.ptr = 4096 ∧ r.arena.beg = 4096 + 4 * 2 ∧
      load r.mem 4096 = 0 ∧ load r.mem 4097 = 0 ∧
      load r.mem 4098 = 170 ∧ load r.mem 4103 = 170 :=
  ⟨⟨4096, ⟨4104, 4112, 16⟩, memset (fun _ => 170) 4096 0 2⟩, rfl, rfl, rfl,
    by decide, by decide, by decide, by decide⟩

/-! ## More `uz` arithmetic -/

theorem sub64_le (e b : Nat) (h : b ≤ e) : sub64 e b ≤ e - b := by
  unfold sub64 UZ
  omega

theorem sub64_eq (e b : Nat) (h : b ≤ e) (hlt : e - b < UZ) : sub64 e b = e - b := by
  unfold sub64 UZ at *
  omega

theorem add64_comm (x y : Nat) : add64 x y = add64 y x := by
  unfold add64
  rw [Nat.add_comm]

/-! ## `arena_alloc` when the sum padding + size * count does not wrap -/

theorem arena_padding_lt (arena : Arena) (align_size : Nat) (h1 : 0 < align_size)
    (h2 : align_size < UZ) : arena_padding arena align_size < align_size := by
  unfold arena_padding
  rw [sub64_one _ h1 h2]
  have := @Nat.and_le_right (neg64 arena.beg) (align_size - 1)
  omega

/-- With a valid arena and a request whose byte count and whose sum with the
padding both fit in a `uz`, `arena_alloc` traps exactly when padding + size * count
exceeds the bytes left. -/
theorem arena_alloc_traps_iff_of_no_wrap (arena : Arena) (m : Mem)
    (size align_size count : Nat)
    (hvalid : arena.beg ≤ arena.end_) (hend : arena.end_ < UZ)
    (hsum : arena_padding arena align_size + size * count < UZ) :
    arena_alloc arena m size align_size count = none ↔
      arena.end_ - arena.beg < arena_padding arena align_size + size * count := by
  have hmul : mul64 size count = size * count := Nat.mod_eq_of_lt (by omega)
  have hadd : add64 (size * count) (arena_padding arena align_size)
      = arena_padding arena align_size + size * count := by
    unfold add64
    rw [Nat.add_comm]
    exact Nat.mod_eq_of_lt hsum
  have havail : sub64 arena.end_ arena.beg = arena.end_ - arena.beg :=
    sub64_eq _ _ hvalid (by omega)
  unfold arena_alloc
  simp only [hmul, hadd, havail]
  split <;> simp_all

/-- With a valid arena and no wrap, the range a returning `arena_alloc` hands out
lies between the old cursor and the new one, which is at most `end`. -/
theorem arena_alloc_range_of_no_wrap (arena : Arena) (m : Mem)
    (size align_size count : Nat) (r : Alloc)
    (hvalid : arena.beg ≤ arena.end_)
    (hsum : arena_padding arena align_size + size * count < UZ)
    (hok : arena_alloc arena m size align_size count = some r) :
    arena.beg ≤ r.ptr ∧ r.ptr + size * count = r.arena.beg ∧
      r.arena.beg ≤ arena.end_ ∧ r.arena.end_ = arena.end_ := by
  obtain ⟨hchk, hptr, har, -⟩ := arena_alloc_some arena m size align_size count r hok
  have hmul : mul64 size count = size * count := Nat.mod_eq_of_lt (by omega)
  have hadd : add64 (arena_padding arena align_size) (size * count)
      = arena_padding arena align_size + size * count := Nat.mod_eq_of_lt hsum
  have hle := sub64_le arena.end_ arena.beg hvalid
  rw [add64_comm, hmul, hadd] at hchk
  rw [hmul, hadd] at har
  rw [har, hptr]
  refine ⟨by omega, ?_, ?_, rfl⟩ <;> simp only [] <;> omega

/-- A sequence of returning `arena_alloc` calls none of which wraps (each
`align_size` is a nonzero `uz` and each `size * count + align_size` is at most `2^64`): the returned ranges are in
increasing order, each ending before the next begins, and all lie between the
cursor and the end of the arena the sequence started from. -/
theorem arena_alloc_seq_ranges_of_no_wrap (reqs : List Request) :
    ∀ (arena : Arena) (m : Mem) (ranges : List (Nat × Nat)),
      arena.beg ≤ arena.end_ →
      (∀ q, q ∈ reqs → 0 < q.align_size ∧ q.align_size < UZ ∧
        q.size * q.count + q.align_size ≤ UZ) →
      arena_alloc_seq arena m reqs = some ranges →
      (∀ x, x ∈ ranges → arena.beg ≤ x.1 ∧ x.1 + x.2 ≤ arena.end_) ∧
      ranges.Pairwise (fun a b => a.1 + a.2 ≤ b.1) := by
  induction reqs with
  | nil =>
    intro arena m ranges _ _ hseq
    have : ranges = [] := by simpa [arena_alloc_seq] using hseq.symm
    subst this
    simp
  | cons q qs ih =>
    intro arena m ranges hvalid hreq hseq
    unfold arena_alloc_seq at hseq
    split at hseq
    · exact absurd hseq (by simp)
    · rename_i r hr
      split at hseq
      · exact absurd hseq (by simp)
      · rename_i rest hrest
        have := Option.some.inj hseq
        subst this
        obtain ⟨hpos, huz, hfit⟩ := hreq q (List.mem_cons_self _ _)
        have hpad := arena_padding_lt arena q.align_size hpos huz
        obtain ⟨h1, h2, h3, h4⟩ := arena_alloc_range_of_no_wrap arena m q.size q.align_size
          q.count r hvalid (by omega) hr
        obtain ⟨hin, hpw⟩ := ih r.arena r.mem rest (by omega)
          (fun q' hq' => hreq q' (List.mem_cons_of_mem _ hq')) hrest
        constructor
        · intro x hx
          rcases List.mem_cons.mp hx with rfl | hx
          · simp only []
            omega
          · have := hin x hx
            omega
        · rw [List.pairwise_cons]
          refine ⟨fun x hx => ?_, hpw⟩
          have := hin x hx
          simp only []
          omega

/-- What `arena_alloc` clears: the `count` bytes from the returned pointer are
zero, and every other byte of memory is as it was. -/
theorem arena_alloc_zeroes_count (arena : Arena) (m : Mem) (size align_size count : Nat)
    (r : Alloc) (hok : arena_alloc arena m size align_size count = some r) :
    (∀ q, r.ptr ≤ q → q < r.ptr + count → load r.mem q = 0) ∧
    (∀ q, q < r.ptr ∨ r.ptr + count ≤ q → r.mem q = m q) := by
  obtain ⟨-, hptr, -, hmem⟩ := arena_alloc_some arena m size align_size count r hok
  rw [hmem, hptr]
  constructor
  · intro q h1 h2
    unfold load memset
    rw [if_pos ⟨h1, h2⟩]
  · intro q h
    unfold memset
    rw [if_neg (by omega)]

/-! ## The arena invariant -/

theorem arena_alloc_keeps_inv (arena : Arena) (m : Mem) (size align_size count : Nat)
    (r : Alloc) (hinv : ArenaInv arena)
    (hok : arena_alloc arena m size align_size count = some r) :
    ArenaInv r.arena ∧ arena.beg ≤ r.arena.beg ∧ r.arena.end_ = arena.end_ ∧
      r.arena.cap = arena.cap := by
  obtain ⟨hchk, -, har, -⟩ := arena_alloc_some arena m size align_size count r hok
  obtain ⟨h1, h2, h3⟩ := hinv
  have hle := sub64_le arena.end_ arena.beg h3
  rw [add64_comm] at hchk
  rw [har]
  unfold ArenaInv
  refine ⟨⟨h1, ?_, ?_⟩, ?_, rfl, rfl⟩ <;> simp only [] <;> omega

theorem str_push_copy_some (arena : Arena) (m : Mem) (s : String) (r : PushCopy)
    (hok : str_push_copy arena m s = some r) :
    ∃ a, arena_alloc arena m 1 1 s.len = some a ∧ r.result = ⟨a.ptr, s.len⟩ ∧
      r.arena = a.arena ∧ r.mem = memcpy a.mem a.ptr s.str s.len := by
  unfold str_push_copy at hok
  split at hok
  · exact absurd hok (by simp)
  · rename_i a ha
    have := Option.some.inj hok
    subst this
    exact ⟨a, ha, rfl, rfl, rfl⟩

/-- C5, as amended: the invariant `end - cap ≤ beg ≤ end` holds of the arena
`arena_init(mem, cap)` returns whenever the region `[mem, mem + cap)` lies in
the address space (`mem + cap < 2^64`); every `arena_alloc` and every
`str_push_copy` that returns keeps it, does not move the cursor `beg`
backwards, and leaves `end` and `cap` as they were. -/
theorem arena_invariant_preserved (mem cap : Nat) (arena : Arena) (m : Mem)
    (size align_size count : Nat) (s : String) :
    (mem + cap < UZ → ArenaInv (arena_init mem cap)) ∧
    (ArenaInv arena → ∀ r, arena_alloc arena m size align_size count = some r →
      ArenaInv r.arena ∧ arena.beg ≤ r.arena.beg ∧ r.arena.end_ = arena.end_ ∧
        r.arena.cap = arena.cap) ∧
    (ArenaInv arena → ∀ r, str_push_copy arena m s = some r →
      ArenaInv r.arena ∧ arena.beg ≤ r.arena.beg ∧ r.arena.end_ = arena.end_ ∧
        r.arena.cap = arena.cap) := by
  refine ⟨?_, ?_, ?_⟩
  · intro hfit
    have hadd : add64 mem cap = mem + cap := Nat.mod_eq_of_lt hfit
    unfold arena_init ArenaInv
    split
    · simp only [hadd]
      omega
    · simp
  · intro hinv r hok
    exact arena_alloc_keeps_inv arena m size align_size count r hinv hok
  · intro hinv r hok
    obtain ⟨a, ha, -, har, -⟩ := str_push_copy_some arena m s r hok
    rw [har]
    exact arena_alloc_keeps_inv arena m 1 1 s.len a hinv ha

/-- Witness of C5: `arena_init(4097, 64)`, then an allocation of two 4-byte
elements aligned to 8, then a copy of a 3-byte String. -/
theorem arena_invariant_preserved_witness :
    arena_init 4097 64 = ⟨4097, 4161, 64⟩ ∧
    ArenaInv (arena_init 4097 64) ∧
    arena_alloc (arena_init 4097 64) (fun _ => 170) 4 8 2
      = some ⟨4104, ⟨4112, 4161, 64⟩, memset (fun _ => 170) 4104 0 2⟩ ∧
    (ArenaInv ⟨4112, 4161, 64⟩ ∧ 4097 ≤ 4112) ∧
    str_push_copy ⟨4112, 4161, 64⟩ (fun _ => 170) ⟨100, 3⟩
      = some ⟨⟨4112, 3⟩, ⟨4115, 4161, 64⟩,
          memcpy (memset (fun _ => 170) 4112 0 3) 4112 100 3⟩ ∧
    (ArenaInv ⟨4115, 4161, 64⟩ ∧ 4112 ≤ 4115) :=
  have h1 := arena_invariant_preserved 4097 64 ⟨4097, 4161, 64⟩ (fun _ => 170) 4 8 2
    ⟨100, 3⟩
  have h2 := arena_invariant_preserved 4097 64 ⟨4112, 4161, 64⟩ (fun _ => 170) 4 8 2
    ⟨100, 3⟩
  have h0 : ArenaInv (arena_init 4097 64) := h1.1 (by decide)
  have a1 := h1.2.1 h0 ⟨4104, ⟨4112, 4161, 64⟩, memset (fun _ => 170) 4104 0 2⟩ rfl
  have a2 := h2.2.2 a1.1
    ⟨⟨4112, 3⟩, ⟨4115, 4161, 64⟩, memcpy (memset (fun _ => 170) 4112 0 3) 4112 100 3⟩ rfl
  ⟨by decide, h0, rfl, ⟨a1.1, a1.2.1⟩, rfl, ⟨a2.1, a2.2.1⟩⟩

/-- Counterexample to C5 as stated: `arena_init(4096, 2^64 - 1)`, whose region
would run past the end of the address space. The sum `4096 + (2^64 - 1)` wraps
to 4095, the arena is `{beg = 4096, end = 4095, cap = 2^64 - 1}`, and
`beg ≤ end` is false right after `arena_init`. -/
theorem arena_init_end_wraps :
    arena_init 4096 (2 ^ 64 - 1) = ⟨4096, 4095, 2 ^ 64 - 1⟩ ∧
    ¬ (arena_init 4096 (2 ^ 64 - 1)).beg ≤ (arena_init 4096 (2 ^ 64 - 1)).end_ ∧
    ¬ ArenaInv (arena_init 4096 (2 ^ 64 - 1)) := by
  refine ⟨by decide, by decide, by decide⟩

/-! ## Copying a String into the arena -/

theorem load_lt (m : Mem) (p : Nat) : load m p < 256 :=
  Nat.mod_lt _ (by decide)

theorem load_memset_out (m : Mem) (p c n q : Nat) (h : q < p ∨ p + n ≤ q) :
    load (memset m p c n) q = load m q := by
  unfold load memset
  rw [if_neg (by omega)]

theorem load_memset_in (m : Mem) (p c n q : Nat) (h1 : p ≤ q) (h2 : q < p + n) :
    load (memset m p c n) q = c % 256 := by
  unfold load memset
  rw [if_pos ⟨h1, h2⟩, Nat.mod_mod]

theorem load_memcpy_out (m : Mem) (dst src n q : Nat) (h : q < dst ∨ dst + n ≤ q) :
    load (memcpy m dst src n) q = load m q := by
  unfold load memcpy
  rw [if_neg (by omega)]

theorem load_memcpy_in (m : Mem) (dst src n i : Nat) (h : i < n) :
    load (memcpy m dst src n) (dst + i) = load m (src + i) := by
  unfold load memcpy
  rw [if_pos ⟨by omega, by omega⟩, Nat.add_sub_cancel_left]
  unfold load
  rw [Nat.mod_mod]

/-- The call `memcmp(p, q, n)` yields zero exactly when the two runs of `n` bytes agree. -/
theorem memcmp_eq_zero_iff (m : Mem) (n : Nat) :
    ∀ p q, memcmp m p q n = 0 ↔ ∀ i, i < n → load m (p + i) = load m (q + i) := by
  induction n with
  | zero => intro p q; simp [memcmp]
  | succ n ih =>
    intro p q
    unfold memcmp
    split
    · rename_i heq
      rw [ih]
      constructor
      · intro h i hi
        cases i with
        | zero => simpa using heq
        | succ j =>
          have := h j (by omega)
          rw [show p + (j + 1) = p + 1 + j by omega, show q + (j + 1) = q + 1 + j by omega]
          exact this
      · intro h i hi
        have := h (i + 1) (by omega)
        rw [show p + 1 + i = p + (i + 1) by omega, show q + 1 + i = q + (i + 1) by omega]
        exact this
    · rename_i hne
      constructor
      · intro h
        exfalso
        apply hne
        omega
      · intro h
        exact absurd (by simpa using h 0 (by omega)) hne

/-- The function `str_match` is true exactly when the lengths are equal and the bytes agree. -/
theorem str_match_iff (m : Mem) (a b : String) :
    str_match m a b = true ↔
      a.len = b.len ∧ ∀ i, i < a.len → load m (a.str + i) = load m (b.str + i) := by
  unfold str_match
  simp only [Bool.and_eq_true, Bool.or_eq_true, beq_iff_eq, memcmp_eq_zero_iff]
  constructor
  · rintro ⟨hlen, h0 | hall⟩
    · exact ⟨hlen, fun i hi => by omega⟩
    · exact ⟨hlen, hall⟩
  · rintro ⟨hlen, hall⟩
    exact ⟨hlen, Or.inr hall⟩

theorem arena_padding_one (arena : Arena) : arena_padding arena 1 = 0 := by
  unfold arena_padding
  have : sub64 1 1 = 0 := by decide
  rw [this, Nat.and_zero]

/-- C6: when the arena has at least `s.len` bytes free and no byte of `s` lies
in the free region `[beg, end)`, `str_push_copy(arena, s)` returns a String `r`
of length `s.len` stored at the previous cursor, whose bytes are those of `s`
(and `str_match(r, s)` is true in the memory after the call); the cursor moves
forward by exactly `s.len`. -/
theorem str_push_copy_spec (arena : Arena) (m : Mem) (s : String)
    (hvalid : arena.beg ≤ arena.end_) (hend : arena.end_ < UZ)
    (hfree : s.len ≤ arena.end_ - arena.beg)
    (hout : ∀ i, i < s.len → s.str + i < arena.beg ∨ arena.end_ ≤ s.str + i) :
    ∃ r, str_push_copy arena m s = some r ∧
      r.result.len = s.len ∧ r.result.str = arena.beg ∧
      r.arena.beg = arena.beg + s.len ∧
      (∀ i, i < s.len → load r.mem (r.result.str + i) = load m (s.str + i)) ∧
      (∀ i, i < s.len → load r.mem (s.str + i) = load m (s.str + i)) ∧
      str_match r.mem r.result s = true := by
  have hlen : s.len < UZ := by omega
  have hmul : mul64 1 s.len = s.len := by
    unfold mul64
    rw [Nat.one_mul, Nat.mod_eq_of_lt hlen]
  have hadd1 : add64 s.len 0 = s.len := by
    unfold add64
    rw [Nat.add_zero, Nat.mod_eq_of_lt hlen]
  have hadd2 : add64 0 s.len = s.len := by rw [add64_comm, hadd1]
  have havail : sub64 arena.end_ arena.beg = arena.end_ - arena.beg :=
    sub64_eq _ _ hvalid (by omega)
  have halloc : arena_alloc arena m 1 1 s.len
      = some ⟨arena.beg, { arena with beg := arena.beg + s.len },
          memset m arena.beg 0 s.len⟩ := by
    unfold arena_alloc
    simp only [arena_padding_one, hmul, hadd1, hadd2, havail, Nat.add_zero]
    rw [if_neg (by omega)]
  have hsrc : ∀ i, i < s.len →
      load (memcpy (memset m arena.beg 0 s.len) arena.beg s.str s.len) (s.str + i)
        = load m (s.str + i) := by
    intro i hi
    have := hout i hi
    rw [load_memcpy_out _ _ _ _ _ (by omega), load_memset_out _ _ _ _ _ (by omega)]
  have hdst : ∀ i, i < s.len →
      load (memcpy (memset m arena.beg 0 s.len) arena.beg s.str s.len) (arena.beg + i)
        = load m (s.str + i) := by
    intro i hi
    have := hout i hi
    rw [load_memcpy_in _ _ _ _ _ hi, load_memset_out _ _ _ _ _ (by omega)]
  refine ⟨⟨⟨arena.beg, s.len⟩, { arena with beg := arena.beg + s.len },
    memcpy (memset m arena.beg 0 s.len) arena.beg s.str s.len⟩, ?_, rfl, rfl, rfl,
    hdst, hsrc, ?_⟩
  · unfold str_push_copy
    rw [halloc]
  · rw [str_match_iff]
    refine ⟨rfl, fun i hi => ?_⟩
    show load _ (arena.beg + i) = load _ (s.str + i)
    rw [hdst i hi, hsrc i hi]

/-- Witness of C6: the 3-byte String "abc" at address 100, copied into an arena
whose free region is `[4112, 4161)`. -/
theorem str_push_copy_spec_witness :
    ∃ r, str_push_copy ⟨4112, 4161, 64⟩ (memOf 100 [97, 98, 99] 0) ⟨100, 3⟩ = some r ∧
      r.result.len = 3 ∧ r.result.str = 4112 ∧
      r.arena.beg = 4112 + 3 ∧
      (∀ i, i < 3 → load r.mem (r.result.str + i) = load (memOf 100 [97, 98, 99] 0) (100 + i)) ∧
      (∀ i, i < 3 → load r.mem (100 + i) = load (memOf 100 [97, 98, 99] 0) (100 + i)) ∧
      str_match r.mem r.result ⟨100, 3⟩ = true :=
  str_push_copy_spec ⟨4112, 4161, 64⟩ (memOf 100 [97, 98, 99] 0) ⟨100, 3⟩
    (by decide) (by decide) (by decide)
    (fun i (hi : i < 3) => Or.inl (show 100 + i < 4112 by omega))

/-! ## `str_starts_with` -/

/-- What `str_starts_with` computes: the two Strings agree on their first
`min(s.len, prefix.len)` bytes. -/
theorem str_starts_with_iff (m : Mem) (s pre : String) :
    str_starts_with m s pre = true ↔
      ∀ i, i < min s.len pre.len → load m (s.str + i) = load m (pre.str + i) := by
  unfold str_starts_with CLAMPTOP MIN
  rw [str_match_iff]
  have hmin : (if s.len < pre.len then s.len else pre.len) = min s.len pre.len := by
    split <;> omega
  simp only [hmin, true_and]

/-- C7, at the failing input: `s` is "ab" (2 bytes at address 100) and the prefix
is "abc" (3 bytes at address 103). `s` is shorter than the prefix, and
`str_starts_with(s, prefix)` is true: both lengths are clamped to 2 before
`str_match`. The empty String starts with "abc" in the same way. -/
theorem str_starts_with_shorter_string :
    (⟨100, 2⟩ : String).len < (⟨103, 3⟩ : String).len ∧
    str_starts_with (memOf 100 [97, 98, 0, 97, 98, 99] 0) ⟨100, 2⟩ ⟨103, 3⟩ = true ∧
    str_starts_with (memOf 100 [97, 98, 0, 97, 98, 99] 0) ⟨100, 0⟩ ⟨103, 3⟩ = true := by
  decide

/-! ## Trimming -/

theorem trim_left_loop_stops (m : Mem) (len : Nat) :
    ∀ str, (trim_left_loop m str len).len = 0 ∨
      char_is_space (load m (trim_left_loop m str len).str) = false := by
  induction len with
  | zero => intro str; left; rfl
  | succ n ih =>
    intro str
    unfold trim_left_loop
    split
    · exact ih (str + 1)
    · rename_i h
      right
      simpa using h

theorem trim_left_loop_fixed (m : Mem) (str len : Nat)
    (h : len = 0 ∨ char_is_space (load m str) = false) :
    trim_left_loop m str len = ⟨str, len⟩ := by
  cases len with
  | zero => rfl
  | succ n =>
    unfold trim_left_loop
    rcases h with h | h
    · omega
    · rw [if_neg (by simp [h])]

theorem trim_right_loop_stops (m : Mem) (str len : Nat) :
    trim_right_loop m str len = 0 ∨
      char_is_space (load m (str + trim_right_loop m str len)) = false := by
  induction len with
  | zero => left; rfl
  | succ n ih =>
    unfold trim_right_loop
    split
    · exact ih
    · rename_i h
      right
      simpa using h

theorem trim_right_loop_fixed (m : Mem) (str len : Nat)
    (h : len = 0 ∨ char_is_space (load m (str + len)) = false) :
    trim_right_loop m str len = len := by
  cases len with
  | zero => rfl
  | succ n =>
    unfold trim_right_loop
    rcases h with h | h
    · omega
    · rw [if_neg (by simp [h])]

/-- C8: `str_trim(str_trim(s))` is the same view as `str_trim(s)`, the same start
and the same length, over any memory. -/
theorem str_trim_idempotent (m : Mem) (s : String) :
    str_trim m (str_trim m s) = str_trim m s := by
  have hl := trim_left_loop_stops m s.len s.str
  have hr := trim_right_loop_stops m (trim_left_loop m s.str s.len).str
    (trim_left_loop m s.str s.len).len
  have hleft : str_trim_left m (str_trim m s) = str_trim m s := by
    unfold str_trim str_trim_right str_trim_left
    apply trim_left_loop_fixed
    simp only []
    rcases hl with h0 | hns
    · left
      rw [h0]
      rfl
    · right
      exact hns
  unfold str_trim at hleft ⊢
  rw [hleft]
  unfold str_trim_right str_trim_left
  simp only []
  rw [trim_right_loop_fixed m _ _ hr]

/-- C9, at the failing inputs. First, the view "a " (2 bytes at address 100,
followed in the buffer by a zero byte): `str_trim_right` tests `s.str[s.len]`,
the byte after the view, finds no whitespace there and returns the view
unchanged, still ending with a space; `str_trim` does the same. Second, the
view "ab" (2 bytes at address 100): followed by a space it is cut to "a",
followed by a zero byte it is left whole, so the outcome depends on the byte
after the view. -/
theorem str_trim_right_reads_past_view :
    str_trim_right (memOf 100 [97, 32] 0) ⟨100, 2⟩ = ⟨100, 2⟩ ∧
    str_trim (memOf 100 [97, 32] 0) ⟨100, 2⟩ = ⟨100, 2⟩ ∧
    char_is_space (load (memOf 100 [97, 32] 0) (100 + 1)) = true ∧
    str_trim_right (memOf 100 [97, 98, 32] 0) ⟨100, 2⟩ = ⟨100, 1⟩ ∧
    str_trim_right (memOf 100 [97, 98, 0] 0) ⟨100, 2⟩ = ⟨100, 2⟩ ∧
    (∀ i, i < 2 →
      load (memOf 100 [97, 98, 32] 0) (100 + i) = load (memOf 100 [97, 98, 0] 0) (100 + i)) := by
  refine ⟨by decide, by decide, by decide, by decide, by decide, ?_⟩
  intro i hi
  interval_cases i <;> decide

/-! ## `str_skip_line` -/

theorem skip_line_loop_found (m : Mem) (i : Nat) :
    ∀ str len, i < len → (∀ j, j < i → load m (str + j) ≠ 10) → load m (str + i) = 10 →
      skip_line_loop m str len = ⟨str + i, len - i⟩ := by
  induction i with
  | zero =>
    intro str len hlt _ hnl
    cases len with
    | zero => omega
    | succ n =>
      unfold skip_line_loop
      rw [if_neg (by simpa using hnl)]
      rfl
  | succ k ih =>
    intro str len hlt hbefore hnl
    cases len with
    | zero => omega
    | succ n =>
      unfold skip_line_loop
      rw [if_pos (by simpa using hbefore 0 (by omega))]
      rw [ih (str + 1) n (by omega)
        (fun j hj => by
          have := hbefore (j + 1) (by omega)
          rwa [show str + 1 + j = str + (j + 1) by omega])
        (by rwa [show str + 1 + k = str + (k + 1) by omega])]
      rw [show str + 1 + k = str + (k + 1) by omega, show n - k = n + 1 - (k + 1) by omega]

theorem skip_line_loop_not_found (m : Mem) (len : Nat) :
    ∀ str, (∀ j, j < len → load m (str + j) ≠ 10) →
      skip_line_loop m str len = ⟨str + len, 0⟩ := by
  induction len with
  | zero => intro str _; rfl
  | succ n ih =>
    intro str hall
    unfold skip_line_loop
    rw [if_pos (by simpa using hall 0 (by omega))]
    rw [ih (str + 1) (fun j hj => by
      have := hall (j + 1) (by omega)
      rwa [show str + 1 + j = str + (j + 1) by omega])]
    rw [show str + 1 + n = str + (n + 1) by omega]

/-- When the first newline of `s` is at index `i`, `str_skip_line(s)` is the view
that begins right after it. -/
theorem str_skip_line_found (m : Mem) (s : String) (i : Nat) (hlen : s.len < UZ)
    (hi : i < s.len) (hbefore : ∀ j, j < i → load m (s.str + j) ≠ 10)
    (hnl : load m (s.str + i) = 10) :
    str_skip_line m s = ⟨s.str + i + 1, s.len - i - 1⟩ := by
  unfold str_skip_line
  rw [skip_line_loop_found m i s.str s.len hi hbefore hnl]
  simp only []
  rw [sub64_eq _ _ (by omega) (by omega)]

/-- When `s` holds no newline, `str_skip_line(s)` starts one byte past the end of `s`
and its length is `0 - 1` in `uz`, that is `2^64 - 1`. -/
theorem str_skip_line_not_found (m : Mem) (s : String)
    (hall : ∀ j, j < s.len → load m (s.str + j) ≠ 10) :
    str_skip_line m s = ⟨s.str + s.len + 1, 2 ^ 64 - 1⟩ := by
  unfold str_skip_line
  rw [skip_line_loop_not_found m s.len s.str hall]
  have h01 : sub64 0 1 = 2 ^ 64 - 1 := by decide
  simp only [h01]

/-- C10, at the failing inputs: for the empty String at address 100 and for
"abc" (no newline) at address 100, `str_skip_line` returns a view that starts
one byte past the end of the input and whose length is `2^64 - 1`, the
wraparound of `s.len -= 1` at `s.len = 0`: longer than the input. -/
theorem str_skip_line_without_newline_wraps :
    str_skip_line (memOf 100 [] 0) ⟨100, 0⟩ = ⟨101, 2 ^ 64 - 1⟩ ∧
    str_skip_line (memOf 100 [97, 98, 99] 0) ⟨100, 3⟩ = ⟨104, 2 ^ 64 - 1⟩ ∧
    (⟨100, 3⟩ : String).len < 2 ^ 64 - 1 := by
  refine ⟨by decide, by decide, by decide⟩

/-! ## `str_find_char` and `str_find_newline` -/

/-- What the loop of `str_find_char` returns when its bound is not below the
number of bytes left: the first index at or after `at` that is out of bounds or
holds `c`. -/
theorem find_char_loop_spec (m : Mem) (source : String) (c : Nat) (fuel : Nat) :
    ∀ at_, source.len - at_ ≤ fuel →
      at_ ≤ find_char_loop m source c fuel at_ ∧
      (∀ j, at_ ≤ j → j < find_char_loop m source c fuel at_ →
        j < source.len ∧ load m (source.str + j) ≠ c) ∧
      (find_char_loop m source c fuel at_ < source.len →
        load m (source.str + find_char_loop m source c fuel at_) = c) ∧
      find_char_loop m source c fuel at_ ≤ max at_ source.len := by
  induction fuel with
  | zero =>
    intro at_ h
    unfold find_char_loop
    exact ⟨Nat.le_refl _, fun j h1 h2 => by omega, fun h2 => by omega, by omega⟩
  | succ n ih =>
    intro at_ h
    unfold find_char_loop
    split
    · rename_i hcond
      simp only [str_in_bounds, Bool.and_eq_true, decide_eq_true_eq, bne_iff_ne, ne_eq] at hcond
      obtain ⟨h1, h2, h3, h4⟩ := ih (at_ + 1) (by omega)
      refine ⟨by omega, fun j hj1 hj2 => ?_, h3, by omega⟩
      by_cases hj : j = at_
      · subst hj
        exact hcond
      · exact h2 j (by omega) hj2
    · rename_i hcond
      simp only [str_in_bounds, Bool.and_eq_true, decide_eq_true_eq, bne_iff_ne, ne_eq,
        not_and, not_not] at hcond
      exact ⟨Nat.le_refl _, fun j h1 h2 => by omega, fun h2 => hcond h2, by omega⟩

/-- What `str_find_char` returns: the first match at or after `offset` when there
is one, and `max(offset, s.len)` when there is none. -/
theorem str_find_char_result (m : Mem) (s : String) (c offset : Nat) :
    (∀ i, offset ≤ i → i < s.len → load m (s.str + i) = c →
      (∀ j, offset ≤ j → j < i → load m (s.str + j) ≠ c) →
      str_find_char m s c offset = i) ∧
    ((∀ j, offset ≤ j → j < s.len → load m (s.str + j) ≠ c) →
      str_find_char m s c offset = max offset s.len) := by
  obtain ⟨h1, h2, h3, h4⟩ := find_char_loop_spec m s c s.len offset (by omega)
  constructor
  · intro i hi1 hi2 hc hbefore
    unfold str_find_char
    by_cases hgt : i < find_char_loop m s c s.len offset
    · exact absurd hc (h2 i hi1 hgt).2
    · by_cases hlt : find_char_loop m s c s.len offset < i
      · exact absurd (h3 (by omega)) (hbefore _ h1 hlt)
      · omega
  · intro hall
    unfold str_find_char
    by_cases hlt : find_char_loop m s c s.len offset < s.len
    · exact absurd (h3 hlt) (hall _ h1 hlt)
    · omega

/-- C11, as amended: `str_find_char(s, c, offset)` returns the least index `i` with
`offset ≤ i < s.len` and `s.str[i] = c`; when there is no such index it returns
`max(offset, s.len)`, which is `s.len` when `offset ≤ s.len` and `offset` itself
when `offset` lies past the end. -/
theorem str_find_char_spec (m : Mem) (s : String) (c offset : Nat) :
    (∀ i, offset ≤ i → i < s.len → load m (s.str + i) = c →
      (∀ j, offset ≤ j → j < i → load m (s.str + j) ≠ c) →
      str_find_char m s c offset = i) ∧
    ((∀ j, offset ≤ j → j < s.len → load m (s.str + j) ≠ c) →
      str_find_char m s c offset = max offset s.len) ∧
    (offset ≤ s.len → (∀ j, offset ≤ j → j < s.len → load m (s.str + j) ≠ c) →
      str_find_char m s c offset = s.len) ∧
    (s.len < offset → str_find_char m s c offset = offset) := by
  have hres := str_find_char_result m s c offset
  refine ⟨hres.1, hres.2, ?_, ?_⟩
  · intro hle hall
    rw [hres.2 hall]
    omega
  · intro hlt
    rw [hres.2 (fun j h1 h2 => by omega)]
    omega

/-- Witness of C11: in "abcabc" the first `b` at or after offset 2 is at index 4,
there is no `x`, and from offset 9, past the end, the result is 9. -/
theorem str_find_char_spec_witness :
    str_find_char (memOf 100 [97, 98, 99, 97, 98, 99] 0) ⟨100, 6⟩ 98 2 = 4 ∧
    str_find_char (memOf 100 [97, 98, 99, 97, 98, 99] 0) ⟨100, 6⟩ 120 2 = 6 ∧
    str_find_char (memOf 100 [97, 98, 99, 97, 98, 99] 0) ⟨100, 6⟩ 120 9 = 9 :=
  ⟨(str_find_char_spec (memOf 100 [97, 98, 99, 97, 98, 99] 0) ⟨100, 6⟩ 98 2).1 4
      (by decide) (by decide) (by decide)
      (fun j (h1 : 2 ≤ j) (h2 : j < 4) => by interval_cases j <;> decide),
   (str_find_char_spec (memOf 100 [97, 98, 99, 97, 98, 99] 0) ⟨100, 6⟩ 120 2).2.2.1
      (by decide)
      (fun j (h1 : 2 ≤ j) (h2 : j < 6) => by interval_cases j <;> decide),
   (str_find_char_spec (memOf 100 [97, 98, 99, 97, 98, 99] 0) ⟨100, 6⟩ 120 9).2.2.2
      (by decide)⟩

/-- Counterexample to C11 as stated: in "abc" (length 3) no index `i` with
`5 ≤ i < 3` exists, and `str_find_char(s, 'x', 5)` returns 5, not the length 3. -/
theorem str_find_char_offset_past_end :
    (¬ ∃ i, 5 ≤ i ∧ i < (⟨100, 3⟩ : String).len ∧
      load (memOf 100 [97, 98, 99] 0) (100 + i) = 120) ∧
    str_find_char (memOf 100 [97, 98, 99] 0) ⟨100, 3⟩ 120 5 = 5 ∧
    str_find_char (memOf 100 [97, 98, 99] 0) ⟨100, 3⟩ 120 5 ≠ (⟨100, 3⟩ : String).len := by
  refine ⟨?_, by decide, by decide⟩
  rintro ⟨i, h1, h2, -⟩
  have : i < 3 := h2
  omega

theorem find_newline_loop_eq (m : Mem) (source : String) (fuel : Nat) :
    ∀ at_, find_newline_loop m source fuel at_ = find_char_loop m source 10 fuel at_ := by
  induction fuel with
  | zero => intro at_; rfl
  | succ n ih =>
    intro at_
    unfold find_newline_loop find_char_loop
    rw [ih]

/-- What `str_find_newline` returns: `str_find_char(s, 10, offset) + 1` in `uz`
arithmetic, for the final `at++`: the index just after the first newline at or
after `offset`, and `s.len + 1` when there is none and `offset ≤ s.len`. -/
theorem str_find_newline_eq_find_char_succ (m : Mem) (s : String) (offset : Nat) :
    str_find_newline m s offset = add64 (str_find_char m s 10 offset) 1 ∧
    (s.len < UZ → ∀ i, offset ≤ i → i < s.len → load m (s.str + i) = 10 →
      (∀ j, offset ≤ j → j < i → load m (s.str + j) ≠ 10) →
      str_find_newline m s offset = i + 1) ∧
    (s.len + 1 < UZ → offset ≤ s.len →
      (∀ j, offset ≤ j → j < s.len → load m (s.str + j) ≠ 10) →
      str_find_newline m s offset = s.len + 1) := by
  have heq : str_find_newline m s offset = add64 (str_find_char m s 10 offset) 1 := by
    unfold str_find_newline str_find_char
    rw [find_newline_loop_eq]
  have hfind := str_find_char_result m s 10 offset
  refine ⟨heq, ?_, ?_⟩
  · intro hlen i h1 h2 hc hbefore
    rw [heq, hfind.1 i h1 h2 hc hbefore]
    exact Nat.mod_eq_of_lt (by omega)
  · intro hlen hle hall
    rw [heq, hfind.2 hall, Nat.max_eq_right hle]
    exact Nat.mod_eq_of_lt hlen

/-- C12, at the failing inputs. In "a\nb" the newline is at index 1:
`str_find_char(s, 10, 0)` returns 1 and `str_find_newline(s, 0)` returns 2. In
"ab\n" the newline is the last byte, at index 2, and `str_find_newline` returns 3,
the length, which under the sentinel contract reads as not found. In "abc",
without a newline, `str_find_char` returns the length 3 and `str_find_newline`
returns 4, past the sentinel. The final `at++` runs whatever the loop found. -/
theorem str_find_newline_differs_from_find_char :
    str_find_char (memOf 100 [97, 10, 98] 0) ⟨100, 3⟩ 10 0 = 1 ∧
    str_find_newline (memOf 100 [97, 10, 98] 0) ⟨100, 3⟩ 0 = 2 ∧
    str_find_char (memOf 100 [97, 98, 10] 0) ⟨100, 3⟩ 10 0 = 2 ∧
    str_find_newline (memOf 100 [97, 98, 10] 0) ⟨100, 3⟩ 0 = (⟨100, 3⟩ : String).len ∧
    str_find_char (memOf 100 [97, 98, 99] 0) ⟨100, 3⟩ 10 0 = 3 ∧
    str_find_newline (memOf 100 [97, 98, 99] 0) ⟨100, 3⟩ 0 = 4 ∧
    str_find_newline (memOf 100 [97, 10, 98] 0) ⟨100, 3⟩ 0
      ≠ str_find_char (memOf 100 [97, 10, 98] 0) ⟨100, 3⟩ 10 0 := by
  decide

/-! ## `str_prefix` and `str_postfix` -/

theorem bytes_length (m : Mem) (s : String) : (bytes m s).length = s.len := by
  simp [bytes]

theorem bytes_take (m : Mem) (s : String) (n : Nat) (h : n ≤ s.len) :
    (bytes m s).take n = bytes m ⟨s.str, n⟩ := by
  unfold bytes
  rw [← List.map_take, List.take_range, Nat.min_eq_left h]

theorem bytes_drop (m : Mem) (s : String) (n : Nat) :
    (bytes m s).drop n = bytes m ⟨s.str + n, s.len - n⟩ := by
  apply List.ext_getElem
  · simp [bytes]
  · intro i h1 h2
    simp [bytes, Nat.add_assoc]

theorem str_prefix_eq (s : String) (n : Nat) (h : n ≤ s.len) :
    str_prefix s n = ⟨s.str, n⟩ := by
  unfold str_prefix CLAMPTOP MIN
  split
  · have : s.len = n := by omega
    rw [this]
  · rfl

theorem str_postfix_eq (s : String) (n : Nat) (h : n ≤ s.len) (hlen : s.len < UZ) :
    str_postfix s n = some ⟨s.str + n, s.len - n⟩ := by
  unfold str_postfix
  rw [if_pos h, sub64_eq _ _ h (by omega)]

/-- C13: for `n ≤ s.len`, `str_prefix(s, n)` has length `n` and holds the first
`n` bytes of `s`; `str_postfix(s, n)` does not trap and holds the other
`s.len - n` bytes; the bytes of the prefix followed by those of the postfix are
the bytes of `s`. For `n > s.len`, `str_prefix` returns `s` unchanged and
`str_postfix` traps. -/
theorem str_prefix_postfix_spec (m : Mem) (s : String) (n : Nat) (hlen : s.len < UZ) :
    (n ≤ s.len →
      ( str_prefix s n).len = n ∧
      ( str_prefix s n).str = s.str ∧
      bytes m ( str_prefix s n) = (bytes m s).take n ∧
      ∃ t, str_postfix s n = some t ∧ t.len = s.len - n ∧ t.str = s.str + n ∧
        bytes m t = (bytes m s).drop n ∧
        bytes m ( str_prefix s n) ++ bytes m t = bytes m s) ∧
    (s.len < n → str_prefix s n = s ∧ str_postfix s n = none) := by
  constructor
  · intro hn
    rw [str_prefix_eq s n hn, str_postfix_eq s n hn hlen]
    refine ⟨rfl, rfl, (bytes_take m s n hn).symm, _, rfl, rfl, rfl,
      (bytes_drop m s n).symm, ?_⟩
    rw [← bytes_take m s n hn, ← bytes_drop m s n, List.take_append_drop]
  · intro hn
    constructor
    · unfold str_prefix CLAMPTOP MIN
      rw [if_pos hn]
    · unfold str_postfix
      rw [if_neg (by omega)]

/-- Witness of C13: "hello" cut at 2 gives "he" and "llo"; cut at 9 the prefix is
"hello" itself and the postfix traps. -/
theorem str_prefix_postfix_spec_witness :
    (( str_prefix ⟨100, 5⟩ 2).len = 2 ∧
      ( str_prefix ⟨100, 5⟩ 2).str = (⟨100, 5⟩ : String).str ∧
      bytes (memOf 100 [104, 101, 108, 108, 111] 0) ( str_prefix ⟨100, 5⟩ 2)
        = (bytes (memOf 100 [104, 101, 108, 108, 111] 0) ⟨100, 5⟩).take 2 ∧
      ∃ t, str_postfix ⟨100, 5⟩ 2 = some t ∧ t.len = (⟨100, 5⟩ : String).len - 2 ∧
        t.str = (⟨100, 5⟩ : String).str + 2 ∧
        bytes (memOf 100 [104, 101, 108, 108, 111] 0) t
          = (bytes (memOf 100 [104, 101, 108, 108, 111] 0) ⟨100, 5⟩).drop 2 ∧
        bytes (memOf 100 [104, 101, 108, 108, 111] 0) ( str_prefix ⟨100, 5⟩ 2)
          ++ bytes (memOf 100 [104, 101, 108, 108, 111] 0) t
          = bytes (memOf 100 [104, 101, 108, 108, 111] 0) ⟨100, 5⟩) ∧
    ( str_prefix ⟨100, 5⟩ 9 = ⟨100, 5⟩ ∧ str_postfix ⟨100, 5⟩ 9 = none) :=
  ⟨(str_prefix_postfix_spec (memOf 100 [104, 101, 108, 108, 111] 0) ⟨100, 5⟩ 2
      (by decide)).1 (by decide),
   (str_prefix_postfix_spec (memOf 100 [104, 101, 108, 108, 111] 0) ⟨100, 5⟩ 9
      (by decide)).2 (by decide)⟩

/-! ## `str_split_once` -/

/-- What the loop of `str_split_once` returns when its bound is not below the number
of bytes left: the first index at or after `i` that is out of bounds or holds a
byte equal, as an `int`, to `split_char`. -/
theorem split_once_loop_spec (m : Mem) (input : String) (c : Int) (fuel : Nat) :
    ∀ i, input.len - i ≤ fuel →
      i ≤ split_once_loop m input c fuel i ∧
      (∀ j, i ≤ j → j < split_once_loop m input c fuel i →
        j < input.len ∧ (load m (input.str + j) : Int) ≠ c) ∧
      (split_once_loop m input c fuel i < input.len →
        (load m (input.str + split_once_loop m input c fuel i) : Int) = c) ∧
      split_once_loop m input c fuel i ≤ max i input.len := by
  induction fuel with
  | zero =>
    intro i h
    unfold split_once_loop
    exact ⟨Nat.le_refl _, fun j h1 h2 => by omega, fun h2 => by omega, by omega⟩
  | succ n ih =>
    intro i h
    unfold split_once_loop
    split
    · rename_i hcond
      simp only [Bool.and_eq_true, decide_eq_true_eq, ne_eq] at hcond
      obtain ⟨h1, h2, h3, h4⟩ := ih (i + 1) (by omega)
      refine ⟨by omega, fun j hj1 hj2 => ?_, h3, by omega⟩
      by_cases hj : j = i
      · subst hj
        exact hcond
      · exact h2 j (by omega) hj2
    · rename_i hcond
      simp only [Bool.and_eq_true, decide_eq_true_eq, ne_eq, not_and, not_not] at hcond
      exact ⟨Nat.le_refl _, fun j h1 h2 => by omega, fun h2 => hcond h2, by omega⟩

/-- The index the loop of `str_split_once` stops at is the first match when there is one. -/
theorem split_once_loop_found (m : Mem) (input : String) (c : Int) (i : Nat)
    (hi : i < input.len) (hc : (load m (input.str + i) : Int) = c)
    (hbefore : ∀ j, j < i → (load m (input.str + j) : Int) ≠ c) :
    split_once_loop m input c input.len 0 = i := by
  obtain ⟨-, h2, h3, -⟩ := split_once_loop_spec m input c input.len 0 (by omega)
  by_cases hgt : i < split_once_loop m input c input.len 0
  · exact absurd hc (h2 i (by omega) hgt).2
  · by_cases hlt : split_once_loop m input c input.len 0 < i
    · exact absurd (h3 (by omega)) (hbefore _ hlt)
    · omega

/-- The index the loop of `str_split_once` stops at is `input.len` when nothing matches. -/
theorem split_once_loop_not_found (m : Mem) (input : String) (c : Int)
    (hall : ∀ j, j < input.len → (load m (input.str + j) : Int) ≠ c) :
    split_once_loop m input c input.len 0 = input.len := by
  obtain ⟨-, -, h3, h4⟩ := split_once_loop_spec m input c input.len 0 (by omega)
  by_cases hlt : split_once_loop m input c input.len 0 < input.len
  · exact absurd (h3 hlt) (hall _ hlt)
  · omega

/-- When the loop stops on a match at index `i`, `str_split_once` returns the bytes
before `i`, the bytes after `i`, and `ok = true`. -/
theorem str_split_once_found (m : Mem) (input : String) (c : Int) (i : Nat)
    (hlen : input.len < UZ)
    (hi : i < input.len) (hc : (load m (input.str + i) : Int) = c)
    (hbefore : ∀ j, j < i → (load m (input.str + j) : Int) ≠ c) :
    str_split_once m input c
      = some ⟨⟨input.str, i⟩, ⟨input.str + (i + 1), input.len - (i + 1)⟩, true⟩ := by
  have hloop := split_once_loop_found m input c i hi hc hbefore
  have hadd : add64 i 1 = i + 1 := Nat.mod_eq_of_lt (by omega)
  unfold str_split_once
  simp only [hloop, hi, decide_True, if_true, hadd]
  rw [str_postfix_eq input (i + 1) (by omega) hlen, str_prefix_eq input i (by omega)]

/-- When no byte matches, `str_split_once` returns the whole input as head, the
empty view at its end as tail, and `ok = false`. -/
theorem str_split_once_not_found (m : Mem) (input : String) (c : Int)
    (hlen : input.len < UZ)
    (hall : ∀ j, j < input.len → (load m (input.str + j) : Int) ≠ c) :
    str_split_once m input c
      = some ⟨input, ⟨input.str + input.len, 0⟩, false⟩ := by
  have hloop := split_once_loop_not_found m input c hall
  have hadd : add64 input.len 0 = input.len := Nat.mod_eq_of_lt (by omega)
  unfold str_split_once
  simp only [hloop, Nat.lt_irrefl, decide_False, Bool.false_eq_true, if_false, hadd]
  rw [str_postfix_eq input input.len (Nat.le_refl _) hlen,
    str_prefix_eq input input.len (Nat.le_refl _), Nat.sub_self]

theorem to_s8_low (d : Nat) (h : d < 128) : to_s8 d = (d : Int) := by
  unfold to_s8
  rw [Nat.mod_eq_of_lt (by omega), if_pos h]

theorem to_s8_high (d : Nat) (h1 : 128 ≤ d) (h2 : d < 256) : to_s8 d < 0 := by
  unfold to_s8
  rw [Nat.mod_eq_of_lt h2, if_neg (by omega)]
  omega

/-- For a delimiter below 128, `str_split_once` does what C14 says: split at the
first occurrence, or the whole input and `ok = false` when there is none. -/
theorem str_split_once_low_byte (m : Mem) (input : String) (d : Nat)
    (hlen : input.len < UZ) (hd : d < 128) :
    (∀ i, i < input.len → load m (input.str + i) = d →
      (∀ j, j < i → load m (input.str + j) ≠ d) →
      str_split_once m input (to_s8 d)
        = some ⟨⟨input.str, i⟩, ⟨input.str + (i + 1), input.len - (i + 1)⟩, true⟩) ∧
    ((∀ j, j < input.len → load m (input.str + j) ≠ d) →
      str_split_once m input (to_s8 d)
        = some ⟨input, ⟨input.str + input.len, 0⟩, false⟩) := by
  rw [to_s8_low d hd]
  constructor
  · intro i hi hc hbefore
    exact str_split_once_found m input d i hlen hi (by exact_mod_cast hc)
      (fun j hj => by exact_mod_cast hbefore j hj)
  · intro hall
    exact str_split_once_not_found m input d hlen (fun j hj => by exact_mod_cast hall j hj)

/-- For a delimiter byte from 128 to 255, passed through the `s8` parameter,
`str_split_once` never finds it, whatever the input holds. -/
theorem str_split_once_high_byte (m : Mem) (input : String) (d : Nat)
    (hlen : input.len < UZ) (h1 : 128 ≤ d) (h2 : d < 256) :
    str_split_once m input (to_s8 d)
      = some ⟨input, ⟨input.str + input.len, 0⟩, false⟩ := by
  apply str_split_once_not_found m input _ hlen
  intro j _
  have := to_s8_high d h1 h2
  omega

/-- C14, at the failing input: the input holds the bytes 0x61, 0xE9, 0x62 and the
delimiter is the byte 0xE9, which the `s8` parameter holds as -23. The byte
occurs at index 1, yet `str_split_once` returns `ok = false`, the whole input
as head and an empty tail: a `u8` byte compared as `int` never equals a
negative `s8`. The two examples of the specification, with the delimiter ','
below 128, come out as stated. -/
theorem str_split_once_misses_high_byte :
    to_s8 233 = -23 ∧
    load (memOf 100 [97, 233, 98] 0) (100 + 1) = 233 ∧
    str_split_once (memOf 100 [97, 233, 98] 0) ⟨100, 3⟩ (to_s8 233)
      = some ⟨⟨100, 3⟩, ⟨103, 0⟩, false⟩ ∧
    str_split_once (memOf 100 [97, 44, 98, 44, 99] 0) ⟨100, 5⟩ (to_s8 44)
      = some ⟨⟨100, 1⟩, ⟨102, 3⟩, true⟩ ∧
    str_split_once (memOf 100 [97, 98, 99] 0) ⟨100, 3⟩ (to_s8 44)
      = some ⟨⟨100, 3⟩, ⟨103, 0⟩, false⟩ := by
  decide

/-- What a returning `str_split_once` is made of: the index its loop stopped at,
the flag, and the argument `i + ok` it hands to `str_postfix`, which passed the
assertion there. -/
theorem str_split_once_some (m : Mem) (input : String) (c : Int) (sp : Split)
    (h : str_split_once m input c = some sp) :
    sp.ok = decide (split_once_loop m input c input.len 0 < input.len) ∧
    sp.head = str_prefix input (split_once_loop m input c input.len 0) ∧
    add64 (split_once_loop m input c input.len 0) (if sp.ok then 1 else 0) ≤ input.len ∧
    sp.tail.len = sub64 input.len
      (add64 (split_once_loop m input c input.len 0) (if sp.ok then 1 else 0)) := by
  unfold str_split_once at h
  simp only [] at h
  split at h
  · exact absurd h (by simp)
  · rename_i tail htail
    have := Option.some.inj h
    subst this
    unfold str_postfix at htail
    by_cases hle : add64 (split_once_loop m input c input.len 0)
        (if decide (split_once_loop m input c input.len 0 < input.len) = true then 1 else 0)
        ≤ input.len
    · rw [if_pos hle] at htail
      have := Option.some.inj htail
      subst this
      exact ⟨rfl, rfl, hle, rfl⟩
    · rw [if_neg hle] at htail
      exact absurd htail (by simp)

/-- A successful split leaves a tail strictly shorter than the input, whatever the
input's length field holds. -/
theorem str_split_once_tail_shorter (m : Mem) (input : String) (c : Int) (sp : Split)
    (h : str_split_once m input c = some sp) (hok : sp.ok = true) :
    sp.tail.len < input.len := by
  obtain ⟨h1, -, h3, h4⟩ := str_split_once_some m input c sp h
  rw [hok] at h1 h3 h4
  have hi : split_once_loop m input c input.len 0 < input.len := by
    simpa using h1.symm
  simp only [if_true] at h3 h4
  rw [h4]
  unfold sub64 add64 UZ at *
  omega

/-- C20: for every input (of a length that fits a `uz`) and every `split_char`,
`str_split_once` returns: the argument `i + ok` of `str_postfix` is at most
`input.len`, so its assertion holds. The result satisfies
`head.len + tail.len + (ok ? 1 : 0) = input.len`, and when `ok` is true the tail
is strictly shorter than the input; so the relation "is the tail of a
successful split of" is well-founded, and re-splitting the tail comes to an end. -/
theorem str_split_once_never_traps (m : Mem) (input : String) (c : Int)
    (hlen : input.len < UZ) :
    (∃ sp, str_split_once m input c = some sp ∧
      add64 (split_once_loop m input c input.len 0) (if sp.ok then 1 else 0) ≤ input.len ∧
      sp.head.len + sp.tail.len + (if sp.ok then 1 else 0) = input.len ∧
      (sp.ok = true → sp.tail.len < input.len)) ∧
    WellFounded (fun t s : String =>
      ∃ c1 sp, str_split_once m s c1 = some sp ∧ sp.ok = true ∧ sp.tail = t) := by
  constructor
  · obtain ⟨-, -, -, h4⟩ := split_once_loop_spec m input c input.len 0 (by omega)
    have hle : split_once_loop m input c input.len 0 ≤ input.len := by omega
    by_cases hi : split_once_loop m input c input.len 0 < input.len
    · have hadd : add64 (split_once_loop m input c input.len 0) 1
          = split_once_loop m input c input.len 0 + 1 := Nat.mod_eq_of_lt (by omega)
      refine ⟨⟨⟨input.str, split_once_loop m input c input.len 0⟩,
        ⟨input.str + (split_once_loop m input c input.len 0 + 1),
          input.len - (split_once_loop m input c input.len 0 + 1)⟩, true⟩, ?_, ?_, ?_, ?_⟩
      · unfold str_split_once
        simp only [hi, decide_True, if_true, hadd]
        rw [str_postfix_eq input _ (by omega) hlen, str_prefix_eq input _ hle]
      · simp only [if_true, hadd]
        omega
      · simp only [if_true]
        omega
      · intro _
        simp only []
        omega
    · have heq : split_once_loop m input c input.len 0 = input.len := by omega
      have hadd : add64 input.len 0 = input.len := Nat.mod_eq_of_lt (by omega)
      refine ⟨⟨input, ⟨input.str + input.len, 0⟩, false⟩, ?_, ?_, ?_, ?_⟩
      · unfold str_split_once
        simp only [heq, Nat.lt_irrefl, decide_False, Bool.false_eq_true, if_false, hadd]
        rw [str_postfix_eq input input.len (Nat.le_refl _) hlen,
          str_prefix_eq input input.len (Nat.le_refl _), Nat.sub_self]
      · simp only [heq, Bool.false_eq_true, if_false, hadd]
        exact Nat.le_refl _
      · simp
      · intro h
        exact absurd h (by simp)
  · apply Subrelation.wf (r := InvImage (· < ·) String.len)
    · rintro t s ⟨c1, sp, hsp, hok, rfl⟩
      exact str_split_once_tail_shorter m s c1 sp hsp hok
    · exact InvImage.wf _ Nat.lt_wfRel.wf

/-- Witness of C20: "a,b,c" split at ',': head "a", tail "b,c", `1 + 3 + 1 = 5`. -/
theorem str_split_once_never_traps_witness :
    ∃ sp, str_split_once (memOf 100 [97, 44, 98, 44, 99] 0) ⟨100, 5⟩ 44 = some sp ∧
      add64 (split_once_loop (memOf 100 [97, 44, 98, 44, 99] 0) ⟨100, 5⟩ 44 5 0)
        (if sp.ok then 1 else 0) ≤ 5 ∧
      sp.head.len + sp.tail.len + (if sp.ok then 1 else 0) = 5 ∧
      (sp.ok = true → sp.tail.len < 5) :=
  (str_split_once_never_traps (memOf 100 [97, 44, 98, 44, 99] 0) ⟨100, 5⟩ 44
    (by decide)).1

/-! ## `str_hash` -/

theorem load_and_255 (m : Mem) (q : Nat) : load m q &&& 255 = load m q := by
  have h := Nat.and_pow_two_sub_one_eq_mod (load m q) 8
  have h255 : (2 : Nat) ^ 8 - 1 = 255 := by decide
  rw [h255] at h
  rw [h]
  exact Nat.mod_eq_of_lt (load_lt m q)

/-- The loop of `str_hash` reads the bytes through `s.str` only. -/
theorem hash_loop_str (m : Mem) (s t : String) (hst : s.str = t.str) (left : Nat) :
    ∀ i h, hash_loop m s left i h = hash_loop m t left i h := by
  induction left with
  | zero => intro i h; rfl
  | succ k ih =>
    intro i h
    unfold hash_loop
    rw [ih, hst]

/-- One more iteration of the loop of `str_hash` mixes in one more byte, last. -/
theorem hash_loop_succ (m : Mem) (s : String) (k : Nat) :
    ∀ i h, hash_loop m s (k + 1) i h
      = mul64 (hash_loop m s k i h ^^^ load m (s.str + (i + k))) 1111111111111111111 := by
  induction k with
  | zero =>
    intro i h
    simp only [hash_loop, load_and_255, Nat.add_zero]
  | succ k ih =>
    intro i h
    rw [hash_loop, ih (i + 1)]
    rw [show i + 1 + k = i + (k + 1) by omega]
    rfl

theorem bytes_succ (m : Mem) (p n : Nat) :
    bytes m ⟨p, n + 1⟩ = bytes m ⟨p, n⟩ ++ [load m (p + n)] := by
  simp [bytes, List.range_succ]

theorem str_hash_succ (m : Mem) (p n : Nat) :
    str_hash m ⟨p, n + 1⟩
      = ((str_hash m ⟨p, n⟩ ^^^ load m (p + n)) * 1111111111111111111) % 2 ^ 64 := by
  unfold str_hash
  simp only []
  rw [hash_loop_succ, hash_loop_str m ⟨p, n + 1⟩ ⟨p, n⟩ rfl, Nat.zero_add]
  rfl

theorem str_hash_eq_reference (m : Mem) (p n : Nat) :
    str_hash m ⟨p, n⟩ = hash_reference (bytes m ⟨p, n⟩) := by
  induction n with
  | zero => rfl
  | succ n ih =>
    rw [str_hash_succ, ih, bytes_succ]
    unfold hash_reference
    rw [List.foldl_append]
    rfl

/-- C15: `str_hash(s)` is the reference fold over the bytes of `s` (seed `0x100`,
step `h := ((h XOR b) * 1111111111111111111) mod 2^64`); the hash of an empty
String is `0x100`; and the hash of `s` followed by one more byte `b` is
`((str_hash(s) XOR b) * 1111111111111111111) mod 2^64`. -/
theorem str_hash_spec (m : Mem) (s : String) :
    str_hash m s = hash_reference (bytes m s) ∧
    str_hash m ⟨s.str, 0⟩ = 0x100 ∧
    bytes m ⟨s.str, s.len + 1⟩ = bytes m s ++ [load m (s.str + s.len)] ∧
    str_hash m ⟨s.str, s.len + 1⟩
      = ((str_hash m s ^^^ load m (s.str + s.len)) * 1111111111111111111) % 2 ^ 64 :=
  ⟨str_hash_eq_reference m s.str s.len, rfl, bytes_succ m s.str s.len,
    str_hash_succ m s.str s.len⟩

/-! ## Matching a string literal -/

theorem memcmp_lit_eq_zero_iff (m : Mem) (n : Nat) :
    ∀ p lit, memcmp_lit m p lit n = 0 ↔ ∀ i, i < n → load m (p + i) = lit.getD i 0 := by
  induction n with
  | zero => intro p lit; simp [memcmp_lit]
  | succ n ih =>
    intro p lit
    have hhead : lit.headD 0 = lit.getD 0 0 := by cases lit <;> rfl
    have htail : ∀ i, lit.tail.getD i 0 = lit.getD (i + 1) 0 := by
      intro i
      cases lit <;> rfl
    unfold memcmp_lit
    split
    · rename_i heq
      rw [ih]
      constructor
      · intro h i hi
        cases i with
        | zero => rw [Nat.add_zero, heq, hhead]
        | succ j =>
          have := h j (by omega)
          rw [htail, show p + 1 + j = p + (j + 1) by omega] at this
          exact this
      · intro h i hi
        have := h (i + 1) (by omega)
        rw [htail, show p + 1 + i = p + (i + 1) by omega]
        exact this
    · rename_i hne
      constructor
      · intro h
        exfalso
        apply hne
        omega
      · intro h
        have h0 := h 0 (by omega)
        rw [Nat.add_zero, ← hhead] at h0
        exact absurd h0 hne

/-- The call `str_match(a, str_lit(lit))` is true exactly when the bytes of `a` are
the bytes of the literal. -/
theorem str_match_lit_iff (m : Mem) (a : String) (lit : List Nat) :
    str_match_lit m a lit = true ↔ bytes m a = lit := by
  unfold str_match_lit
  simp only [Bool.and_eq_true, Bool.or_eq_true, beq_iff_eq, memcmp_lit_eq_zero_iff]
  constructor
  · rintro ⟨hlen, h⟩
    apply List.ext_getElem
    · rw [bytes_length, hlen]
    · intro i h1 h2
      have hi : i < a.len := by rw [bytes_length] at h1; exact h1
      have hall : ∀ i, i < a.len → load m (a.str + i) = lit.getD i 0 := by
        rcases h with h0 | hall
        · intro j hj; omega
        · exact hall
      have := hall i hi
      rw [List.getD_eq_getElem _ _ h2] at this
      simpa [bytes] using this
  · intro h
    have hlen : a.len = lit.length := by rw [← h, bytes_length]
    refine ⟨hlen, Or.inr fun i hi => ?_⟩
    have h2 : i < lit.length := by omega
    rw [List.getD_eq_getElem _ _ h2]
    have h1 : i < (bytes m a).length := by rw [bytes_length]; exact hi
    have : (bytes m a)[i] = lit[i] := by simp only [h]
    simpa [bytes] using this

/-! ## `str_to_bool` -/

theorem bytes_four (m : Mem) (s : String) (h : s.len = 4) :
    bytes m s = [load m s.str, load m (s.str + 1), load m (s.str + 2), load m (s.str + 3)] := by
  unfold bytes
  rw [h]
  rfl

/-- C18: `str_to_bool(s)` is true exactly when `s` has length 4 and its bytes are
't', 'r', 'u', 'e'; every other input yields false, and the function, a total
one, traps on none. Underneath, `str_match(a, b)` is true exactly when the
lengths are equal and all bytes agree. -/
theorem str_to_bool_spec (m : Mem) (s : String) :
    (str_to_bool m s = true ↔
      s.len = 4 ∧ load m s.str = 116 ∧ load m (s.str + 1) = 114 ∧
        load m (s.str + 2) = 117 ∧ load m (s.str + 3) = 101) ∧
    (str_to_bool m s = false ↔ bytes m s ≠ [116, 114, 117, 101]) ∧
    (∀ a b, str_match m a b = true ↔
      a.len = b.len ∧ ∀ i, i < a.len → load m (a.str + i) = load m (b.str + i)) := by
  have hiff : str_to_bool m s = true ↔ bytes m s = [116, 114, 117, 101] := by
    unfold str_to_bool
    rw [← str_match_lit_iff]
    split <;> simp_all
  refine ⟨?_, ?_, fun a b => str_match_iff m a b⟩
  · rw [hiff]
    constructor
    · intro h
      have hlen : s.len = 4 := by rw [← bytes_length m s, h]; rfl
      rw [bytes_four m s hlen] at h
      simp only [List.cons.injEq, and_true] at h
      exact ⟨hlen, h⟩
    · rintro ⟨hlen, h1, h2, h3, h4⟩
      rw [bytes_four m s hlen, h1, h2, h3, h4]
  · rw [Ne, ← hiff]
    cases str_to_bool m s <;> simp

/-- Examples for C18: "true" yields true through the theorem; "TRUE", "1", "yes",
the empty String and "truex" yield false. -/
theorem str_to_bool_spec_witness :
    str_to_bool (memOf 100 [116, 114, 117, 101] 0) ⟨100, 4⟩ = true ∧
    str_to_bool (memOf 100 [84, 82, 85, 69] 0) ⟨100, 4⟩ = false ∧
    str_to_bool (memOf 100 [49] 0) ⟨100, 1⟩ = false ∧
    str_to_bool (memOf 100 [121, 101, 115] 0) ⟨100, 3⟩ = false ∧
    str_to_bool (memOf 100 [] 0) ⟨100, 0⟩ = false ∧
    str_to_bool (memOf 100 [116, 114, 117, 101, 120] 0) ⟨100, 5⟩ = false :=
  ⟨(str_to_bool_spec (memOf 100 [116, 114, 117, 101] 0) ⟨100, 4⟩).1.mpr
      ⟨rfl, by decide, by decide, by decide, by decide⟩,
    by decide, by decide, by decide, by decide, by decide⟩

/-! ## `u64_from_str` and `str_to_u32` -/

/-- On a digit character of a radix up to 16, the table holds the digit's value. -/
theorem integer_symbol_reverse_digit (radix c : Nat) (h : is_digit_of radix c = true) :
    integer_symbol_reverse (c &&& 0x7f) = digit_value c := by
  have hc : c < 128 := by
    unfold is_digit_of at h
    simp only [Bool.and_eq_true, decide_eq_true_eq, Bool.decide_or, Bool.or_eq_true,
      Bool.decide_and] at h
    omega
  have hrange : (48 ≤ c ∧ c ≤ 57) ∨ (97 ≤ c ∧ c ≤ 102) ∨ (65 ≤ c ∧ c ≤ 70) := by
    unfold is_digit_of at h
    simp only [Bool.and_eq_true, decide_eq_true_eq, Bool.decide_or, Bool.or_eq_true,
      Bool.decide_and] at h
    exact h.1
  have key : ∀ d, d < 128 →
      ((48 ≤ d ∧ d ≤ 57) ∨ (97 ≤ d ∧ d ≤ 102) ∨ (65 ≤ d ∧ d ≤ 70)) →
      integer_symbol_reverse (d &&& 0x7f) = digit_value d := by
    decide
  exact key c hc hrange

/-- The loop of `u64_from_str` reads the bytes through `s.str` only. -/
theorem u64_from_str_loop_str (m : Mem) (s t : String) (radix : Nat) (hst : s.str = t.str)
    (left : Nat) :
    ∀ i acc, u64_from_str_loop m s radix left i acc = u64_from_str_loop m t radix left i acc := by
  induction left with
  | zero => intro i acc; rfl
  | succ k ih =>
    intro i acc
    unfold u64_from_str_loop
    rw [ih, hst]

/-- One more iteration of the loop of `u64_from_str` takes in one more byte, last. -/
theorem u64_from_str_loop_succ (m : Mem) (s : String) (radix k : Nat) :
    ∀ i acc, u64_from_str_loop m s radix (k + 1) i acc
      = add64 (mul64 (u64_from_str_loop m s radix k i acc) radix)
          (integer_symbol_reverse (load m (s.str + (i + k)) &&& 0x7f)) := by
  induction k with
  | zero =>
    intro i acc
    simp only [u64_from_str_loop, Nat.add_zero]
  | succ k ih =>
    intro i acc
    rw [u64_from_str_loop, ih (i + 1)]
    rw [show i + 1 + k = i + (k + 1) by omega]
    rfl

theorem digits_value_snoc (radix : Nat) (ds : List Nat) (c : Nat) :
    digits_value radix (ds ++ [c]) = digits_value radix ds * radix + digit_value c := by
  unfold digits_value
  rw [List.foldl_append]
  rfl

/-- On digit characters, the loop of `u64_from_str` yields the number they denote,
modulo `2^64`. -/
theorem u64_from_str_loop_value (m : Mem) (p radix : Nat) (n : Nat) :
    (bytes m ⟨p, n⟩).all (is_digit_of radix) = true →
    u64_from_str_loop m ⟨p, n⟩ radix n 0 0 = digits_value radix (bytes m ⟨p, n⟩) % UZ := by
  induction n with
  | zero => intro _; rfl
  | succ n ih =>
    intro hall
    rw [bytes_succ, List.all_append, Bool.and_eq_true] at hall
    have hlast : is_digit_of radix (load m (p + n)) = true := by simpa using hall.2
    rw [u64_from_str_loop_succ, u64_from_str_loop_str m ⟨p, n + 1⟩ ⟨p, n⟩ radix rfl,
      ih hall.1, bytes_succ, digits_value_snoc, Nat.zero_add,
      integer_symbol_reverse_digit radix _ hlast]
    unfold add64 mul64
    rw [Nat.add_mod, Nat.mod_mod, Nat.mul_mod, Nat.mod_mod, ← Nat.mul_mod, ← Nat.add_mod]

/-- On digit characters of a radix from 2 to 16, `u64_from_str` yields the number
they denote, modulo `2^64`. -/
theorem u64_from_str_value (m : Mem) (t : String) (radix : Nat)
    (h1 : 1 < radix) (h2 : radix ≤ 16)
    (hall : (bytes m t).all (is_digit_of radix) = true) :
    u64_from_str m t radix = digits_value radix (bytes m t) % UZ := by
  unfold u64_from_str
  rw [if_pos ⟨h1, h2⟩]
  exact u64_from_str_loop_value m t.str radix t.len hall

/-- The three shapes of a well-formed numeric String. -/
theorem numeral_value_cases (bs : List Nat) (v : Nat) (h : numeral_value bs = some v) :
    (∃ ds, bs = 48 :: 120 :: ds ∧ ds.all (is_digit_of 16) = true ∧ v = digits_value 16 ds) ∨
    (∃ ds, bs = 48 :: 98 :: ds ∧ ds.all (is_digit_of 2) = true ∧ v = digits_value 2 ds) ∨
    (bs.take 2 ≠ [48, 120] ∧ bs.take 2 ≠ [48, 98] ∧ bs.all (is_digit_of 10) = true ∧
      v = digits_value 10 bs) := by
  unfold numeral_value at h
  split at h
  · rename_i ds
    split at h
    · rename_i hall
      exact Or.inl ⟨ds, rfl, hall, (Option.some.inj h).symm⟩
    · exact absurd h (by simp)
  · rename_i ds
    split at h
    · rename_i hall
      exact Or.inr (Or.inl ⟨ds, rfl, hall, (Option.some.inj h).symm⟩)
    · exact absurd h (by simp)
  · rename_i h1 h2
    split at h
    · rename_i hall
      refine Or.inr (Or.inr ⟨?_, ?_, hall, (Option.some.inj h).symm⟩)
      · intro ht
        have := List.take_append_drop 2 bs
        rw [ht] at this
        exact h1 _ this.symm
      · intro ht
        have := List.take_append_drop 2 bs
        rw [ht] at this
        exact h2 _ this.symm
    · exact absurd h (by simp)

/-- The bytes of `str_prefix(s, 2)` are the first two bytes of `s`, or all of them. -/
theorem bytes_str_prefix_two (m : Mem) (s : String) :
    bytes m ( str_prefix s 2) = (bytes m s).take 2 := by
  by_cases h : 2 ≤ s.len
  · rw [str_prefix_eq s 2 h, bytes_take m s 2 h]
  · have hs : str_prefix s 2 = s := by
      unfold str_prefix CLAMPTOP MIN
      rw [if_pos (by omega)]
    rw [hs, List.take_of_length_le (by rw [bytes_length]; omega)]

/-- On a well-formed numeric String that denotes `v`, `str_to_u32` is
`safe_cast_u32` of `v mod 2^64`: the accumulator of `u64_from_str` wraps. -/
theorem str_to_u32_eq (m : Mem) (s : String) (v : Nat) (hlen : s.len < UZ)
    (h : numeral_value (bytes m s) = some v) :
    str_to_u32 m s = safe_cast_u32 (v % UZ) := by
  have hpre := bytes_str_prefix_two m s
  rcases numeral_value_cases _ v h with ⟨ds, hbs, hall, hv⟩ | ⟨ds, hbs, hall, hv⟩ |
    ⟨h1, h2, hall, hv⟩
  · have h2len : 2 ≤ s.len := by
      rw [← bytes_length m s, hbs]
      simp
    have hm : str_match_lit m ( str_prefix s 2) [48, 120] = true := by
      rw [str_match_lit_iff, hpre, hbs]
      rfl
    have hds : bytes m ⟨s.str + 2, s.len - 2⟩ = ds := by
      rw [← bytes_drop, hbs]
      rfl
    unfold str_to_u32
    simp only [hm, if_true]
    rw [str_postfix_eq s 2 h2len hlen]
    simp only []
    rw [u64_from_str_value m _ 16 (by decide) (by decide) (by rw [hds]; exact hall), hds, hv]
  · have h2len : 2 ≤ s.len := by
      rw [← bytes_length m s, hbs]
      simp
    have hm1 : str_match_lit m ( str_prefix s 2) [48, 120] = false := by
      rw [Bool.eq_false_iff, Ne, str_match_lit_iff, hpre, hbs]
      simp
    have hm2 : str_match_lit m ( str_prefix s 2) [48, 98] = true := by
      rw [str_match_lit_iff, hpre, hbs]
      rfl
    have hds : bytes m ⟨s.str + 2, s.len - 2⟩ = ds := by
      rw [← bytes_drop, hbs]
      rfl
    unfold str_to_u32
    simp only [hm1, hm2, if_true, Bool.false_eq_true, if_false]
    rw [str_postfix_eq s 2 h2len hlen]
    simp only []
    rw [u64_from_str_value m _ 2 (by decide) (by decide) (by rw [hds]; exact hall), hds, hv]
  · have hm1 : str_match_lit m ( str_prefix s 2) [48, 120] = false := by
      rw [Bool.eq_false_iff, Ne, str_match_lit_iff, hpre]
      exact h1
    have hm2 : str_match_lit m ( str_prefix s 2) [48, 98] = false := by
      rw [Bool.eq_false_iff, Ne, str_match_lit_iff, hpre]
      exact h2
    unfold str_to_u32
    simp only [hm1, hm2, Bool.false_eq_true, if_false]
    rw [str_postfix_eq s 0 (Nat.zero_le _) hlen]
    simp only [Nat.add_zero, Nat.sub_zero]
    rw [u64_from_str_value m _ 10 (by decide) (by decide) hall, hv]

/-- C16: on a String that is "0x" and hexadecimal digits, "0b" and binary digits,
or decimal digits, and that denotes a number `v ≤ 2^32 - 1`, `str_to_u32` returns
`v` and does not trap. -/
theorem str_to_u32_in_range (m : Mem) (s : String) (v : Nat) (hlen : s.len < UZ)
    (hnum : numeral_value (bytes m s) = some v) (hv : v ≤ 2 ^ 32 - 1) :
    str_to_u32 m s = some v := by
  rw [str_to_u32_eq m s v hlen hnum]
  have hv1 : v % UZ = v := Nat.mod_eq_of_lt (by unfold UZ; omega)
  unfold safe_cast_u32
  rw [hv1, if_pos (by omega), Nat.mod_eq_of_lt (by omega)]

/-- Witness of C16, the three examples of the specification: "0x1F" gives 31,
"0b101" gives 5, "42" gives 42. -/
theorem str_to_u32_in_range_witness :
    str_to_u32 (memOf 100 [48, 120, 49, 70] 0) ⟨100, 4⟩ = some 31 ∧
    str_to_u32 (memOf 100 [48, 98, 49, 48, 49] 0) ⟨100, 5⟩ = some 5 ∧
    str_to_u32 (memOf 100 [52, 50] 0) ⟨100, 2⟩ = some 42 :=
  ⟨str_to_u32_in_range (memOf 100 [48, 120, 49, 70] 0) ⟨100, 4⟩ 31
      (by decide) (by decide) (by decide),
   str_to_u32_in_range (memOf 100 [48, 98, 49, 48, 49] 0) ⟨100, 5⟩ 5
      (by decide) (by decide) (by decide),
   str_to_u32_in_range (memOf 100 [52, 50] 0) ⟨100, 2⟩ 42
      (by decide) (by decide) (by decide)⟩

/-- On a well-formed numeric String that denotes a number above `2^32 - 1` and
below `2^64`, `str_to_u32` traps. -/
theorem str_to_u32_traps_below_wrap (m : Mem) (s : String) (v : Nat) (hlen : s.len < UZ)
    (hnum : numeral_value (bytes m s) = some v) (h1 : 2 ^ 32 - 1 < v) (h2 : v < 2 ^ 64) :
    str_to_u32 m s = none := by
  rw [str_to_u32_eq m s v hlen hnum]
  have hv1 : v % UZ = v := Nat.mod_eq_of_lt (by unfold UZ; omega)
  unfold safe_cast_u32
  rw [hv1, if_neg (by omega)]

/-- C17, at the failing inputs: the decimal String "18446744073709551616" denotes
`2^64`, above the 32-bit range, and `str_to_u32` returns 0 instead of trapping:
the `u64` accumulator of `u64_from_str` wraps before `safe_cast_u32` sees it.
The same holds of the hexadecimal "0x10000000000000001", which denotes
`2^64 + 1` and yields 1. "4294967296" (`2^32`) does trap. -/
theorem str_to_u32_wraps_past_u64 :
    numeral_value (bytes (memOf 100
        [49, 56, 52, 52, 54, 55, 52, 52, 48, 55, 51, 55, 48, 57, 53, 53, 49, 54, 49, 54] 0)
        ⟨100, 20⟩) = some (2 ^ 64) ∧
    str_to_u32 (memOf 100
        [49, 56, 52, 52, 54, 55, 52, 52, 48, 55, 51, 55, 48, 57, 53, 53, 49, 54, 49, 54] 0)
        ⟨100, 20⟩ = some 0 ∧
    numeral_value (bytes (memOf 100
        [48, 120, 49, 48, 48, 48, 48, 48, 48, 48, 48, 48, 48, 48, 48, 48, 48, 48, 49] 0)
        ⟨100, 19⟩) = some (2 ^ 64 + 1) ∧
    str_to_u32 (memOf 100
        [48, 120, 49, 48, 48, 48, 48, 48, 48, 48, 48, 48, 48, 48, 48, 48, 48, 48, 49] 0)
        ⟨100, 19⟩ = some 1 ∧
    str_to_u32 (memOf 100 [52, 50, 57, 52, 57, 54, 55, 50, 57, 54] 0) ⟨100, 10⟩ = none := by
  refine ⟨by decide, by decide, by decide, by decide, by decide⟩

/-! ## `arena_report_usage` -/

end Base
